import Mathlib

/-!
Verification of the gangaji Datalog analysis core against its
natural-language specification.

The definitions below are a shallow embedding of the Go sources:
  * `cmd/gangaji/datalog` — engine (`Engine`, `Evaluate`, clause and
    expression evaluation), fact generation (`GenerateFacts`,
    `computeMaxConcurrency`, `computeCriticalPath`), parser, formatting
    (`FormatDuration`, `truncate`).
  * `cmd/gangaji/suggestions` — suggestion ordering (`impactOrder`) and
    deduplication (`deduplicateSuggestions`).

Modelling conventions:
  * Go `float64` values are modelled as `ℚ` (all arithmetic the claims
    exercise is exact on the inputs involved); Go `int`/`int64` as `ℤ`.
  * Go's `interface{}` dynamic values are the closed variant `Value`
    (string | integer | float | bool), as in the repository's data model.
  * Go maps keyed by strings are modelled as association lists in
    first-occurrence order.  Go's map iteration order is unspecified;
    the claims proved here depend only on the set of emitted facts.
  * `fmt.Sprint` of a float is abstracted by a fixed deterministic
    rendering (`sprintValue`); no claim proved here depends on the exact
    digits Go would print for a float.
  * Fallible Go code returns `Except String`.
-/

set_option linter.unusedVariables false

namespace Gangaji

/-! ## Dynamic values (Go `interface{}` as stored in facts and bindings) -/

inductive Value where
  | str : String → Value
  | int : ℤ → Value
  | float : ℚ → Value
  | bool : Bool → Value
deriving DecidableEq, Repr

/-- `toFloat64` (engine.go): numeric kinds convert, strings and booleans
do not.  Go's separate int/int64/uint/... cases all collapse to `.int`. -/
def toFloat64 : Value → Except String ℚ
  | .int n => .ok (n : ℚ)
  | .float q => .ok q
  | .str _ => .error "cannot convert to float64"
  | .bool _ => .error "cannot convert to float64"

/-- `toFloat64NoErr` (engine.go). -/
def toFloat64NoErr (v : Value) : Option ℚ :=
  match toFloat64 v with
  | .ok q => some q
  | .error _ => none

/-- Deterministic stand-in for Go's `fmt.Sprint` on a dynamic value.
The float rendering is a fixed canonical form; no proved claim depends
on its exact digits. -/
def sprintValue : Value → String
  | .str s => s
  | .int n => toString n
  | .float q => toString q.num ++ (if q.den = 1 then "" else "/" ++ toString q.den)
  | .bool b => if b then "true" else "false"

/-- `valuesEqual` (engine.go): numeric comparison when both sides convert
to a number, otherwise equality of printed forms. -/
def valuesEqual (a b : Value) : Bool :=
  match toFloat64NoErr a, toFloat64NoErr b with
  | some x, some y => x = y
  | _, _ => sprintValue a = sprintValue b

/-! ## Facts -/

/-- `Fact` (types.go): a predicate plus ground argument values. -/
structure Fact where
  predicate : String
  args : List Value
deriving DecidableEq, Repr

/-- `factsEqual` (engine.go). -/
def factsEqual (a b : Fact) : Bool :=
  a.predicate = b.predicate ∧ a.args.length = b.args.length ∧
    (a.args.zip b.args).all fun (x, y) => valuesEqual x y

/-! ## AST (types.go) -/

/-- `Term`: variable, constant or wildcard.  Variables carry their
source name (including the `?`). -/
inductive Term where
  | var : String → Term
  | const : Value → Term
  | wildcard : Term
deriving DecidableEq, Repr

structure Atom where
  predicate : String
  args : List Term
deriving DecidableEq, Repr

inductive ComparisonOp where
  | eq | neq | lt | lte | gt | gte
deriving DecidableEq, Repr

inductive ArithOp where
  | add | sub | mul | div | mod
deriving DecidableEq, Repr

inductive AggOp where
  | count | sum | max | min | avg
deriving DecidableEq, Repr

/-- `Expression`: term, binary arithmetic, or built-in function call. -/
inductive Expr where
  | termExpr : Term → Expr
  | binaryExpr : Expr → ArithOp → Expr → Expr
  | functionCall : String → List Expr → Expr

/-- `Clause`: the five body clause forms. -/
inductive Clause where
  | atomClause : Atom → Clause
  | comparison : Term → ComparisonOp → Term → Clause
  | assignment : String → Expr → Clause
  | aggregation : AggOp → String → List Clause → String → Clause
  | negation : Atom → Clause

structure Rule where
  head : Atom
  body : List Clause

/-! ## Bindings (types.go)

Go's `Bindings` is `map[Variable]interface{}`; we use an association
list with first-match lookup and update-in-place insertion.  `Clone` is
the identity on this immutable representation. -/

def Bindings := List (String × Value)

instance : DecidableEq Bindings := inferInstanceAs (DecidableEq (List (String × Value)))

def bLookup (b : Bindings) (v : String) : Option Value :=
  match b with
  | [] => none
  | (k, val) :: rest => if k = v then some val else bLookup rest v

/-- `bindings[v] = val`: overwrite if present, append if fresh. -/
def bSet (b : Bindings) (v : String) (val : Value) : Bindings :=
  match b with
  | [] => [(v, val)]
  | (k, old) :: rest => if k = v then (k, val) :: rest else (k, old) :: bSet rest v val

/-! ## Engine state (engine.go) -/

/-- `BuiltinFunc`. -/
def BuiltinFunc := List Value → Except String Value

/-- `Engine`: predicate-indexed fact store, rules, built-ins.  The fact
map is an association list in first-insertion order. -/
structure Engine where
  facts : List (String × List Fact)
  rules : List Rule
  builtins : List (String × BuiltinFunc)

def lookupAssoc {α : Type} (l : List (String × α)) (k : String) : Option α :=
  match l with
  | [] => none
  | (k', v) :: rest => if k' = k then some v else lookupAssoc rest k

/-- `GetFacts` / `e.facts[predicate]`. -/
def getFacts (e : Engine) (p : String) : List Fact :=
  (lookupAssoc e.facts p).getD []

/-- `AddFact`: append to the predicate's list (creating it if absent). -/
def addFactStore (store : List (String × List Fact)) (f : Fact) :
    List (String × List Fact) :=
  match store with
  | [] => [(f.predicate, [f])]
  | (p, fs) :: rest =>
      if p = f.predicate then (p, fs ++ [f]) :: rest
      else (p, fs) :: addFactStore rest f

def addFact (e : Engine) (f : Fact) : Engine :=
  { e with facts := addFactStore e.facts f }

/-- `factExists` (engine.go). -/
def factExists (e : Engine) (f : Fact) : Bool :=
  (getFacts e f.predicate).any fun g => factsEqual g f

/-- `FactCount` (engine.go): total number of stored facts. -/
def factCount (e : Engine) : ℕ :=
  (e.facts.map fun (_, fs) => fs.length).sum

/-! ## Term and expression evaluation (engine.go) -/

/-- `resolveTerm`. -/
def resolveTerm (t : Term) (b : Bindings) : Except String Value :=
  match t with
  | .var v =>
      match bLookup b v with
      | some val => .ok val
      | none => .error ("unbound variable: " ++ v)
  | .const c => .ok c
  | .wildcard => .error "cannot resolve wildcard"

/-- Go `int(q)` conversion: truncation toward zero. -/
def goTrunc (q : ℚ) : ℤ := if 0 ≤ q then ⌊q⌋ else -⌊-q⌋

/-- `math.Mod`: floating-point remainder with the sign of the dividend.
(`math.Mod(x, 0)` is NaN in Go; NaN is outside this rational model and
no claim exercises it — we return 0 there.) -/
def goFmod (x y : ℚ) : ℚ := if y = 0 then 0 else x - y * (goTrunc (x / y) : ℚ)

/-- `evaluateExpression`.  Recursion is structural on the expression. -/
def evaluateExpression (e : Engine) (ex : Expr) (b : Bindings) : Except String Value :=
  match ex with
  | .termExpr t => resolveTerm t b
  | .binaryExpr l op r => do
      let leftVal ← evaluateExpression e l b
      let rightVal ← evaluateExpression e r b
      let left ← toFloat64 leftVal
      let right ← toFloat64 rightVal
      match op with
      | .add => .ok (.float (left + right))
      | .sub => .ok (.float (left - right))
      | .mul => .ok (.float (left * right))
      | .div =>
          if right = 0 then .error "division by zero"
          else .ok (.float (left / right))
      | .mod => .ok (.float (goFmod left right))
  | .functionCall name args =>
      match lookupAssoc e.builtins name with
      | none => .error ("unknown function: " ++ name)
      | some fn => do
          let vals ← args.attach.mapM fun ⟨a, _⟩ => evaluateExpression e a b
          fn vals
termination_by sizeOf ex
decreasing_by
  all_goals simp_wf
  all_goals first
    | omega
    | (have hlt := List.sizeOf_lt_of_mem ‹a ∈ args›; omega)

/-! ## Clause evaluation (engine.go) -/

/-- Argument matching loop of `evaluateAtom`.  Go's `break` inside the
`switch` only leaves the switch, so the loop always walks all arguments;
`match` is sticky once false. -/
def matchArgs : List (Term × Value) → Bool → Bindings → Bool × Bindings
  | [], m, nb => (m, nb)
  | (arg, factVal) :: rest, m, nb =>
      match arg with
      | .var a =>
          match bLookup nb a with
          | some existing =>
              matchArgs rest (if valuesEqual existing factVal then m else false) nb
          | none => matchArgs rest m (bSet nb a factVal)
      | .const c =>
          matchArgs rest (if valuesEqual c factVal then m else false) nb
      | .wildcard => matchArgs rest m nb

/-- `evaluateAtom`: unify the atom against every stored fact of its
predicate with matching arity. -/
def evaluateAtom (e : Engine) (atom : Atom) (b : Bindings) :
    Except String (List Bindings) :=
  .ok <| (getFacts e atom.predicate).filterMap fun fact =>
    if fact.args.length = atom.args.length then
      let (m, nb) := matchArgs (atom.args.zip fact.args) true b
      if m then some nb else none
    else none

/-- `compareValues`: numeric comparison when both sides convert,
otherwise lexicographic comparison of printed forms.  The Go
"unknown operator" error branch is unreachable with the closed
operator type. -/
def compareValues (left right : Value) (op : ComparisonOp) : Bool :=
  match toFloat64NoErr left, toFloat64NoErr right with
  | some l, some r =>
      match op with
      | .eq => l = r
      | .neq => l ≠ r
      | .lt => l < r
      | .lte => l ≤ r
      | .gt => r < l
      | .gte => r ≤ l
  | _, _ =>
      let ls := sprintValue left
      let rs := sprintValue right
      match op with
      | .eq => ls = rs
      | .neq => ls ≠ rs
      | .lt => ls < rs
      | .lte => ls ≤ rs
      | .gt => rs < ls
      | .gte => rs ≤ ls

/-- `evaluateComparison`: unresolvable terms drop the candidate
(no error). -/
def evaluateComparison (e : Engine) (left : Term) (op : ComparisonOp)
    (right : Term) (b : Bindings) : Except String (List Bindings) :=
  match resolveTerm left b with
  | .error _ => .ok []
  | .ok leftVal =>
      match resolveTerm right b with
      | .error _ => .ok []
      | .ok rightVal =>
          if compareValues leftVal rightVal op then .ok [b] else .ok []

/-- `evaluateAssignment`: an expression-evaluation failure drops the
candidate (`return nil, nil` in the source); success extends the
bindings. -/
def evaluateAssignment (e : Engine) (v : String) (ex : Expr) (b : Bindings) :
    Except String (List Bindings) :=
  match evaluateExpression e ex b with
  | .error _ => .ok []
  | .ok value => .ok [bSet b v value]

/-- `evaluateNegation`: succeeds with the unchanged bindings iff the atom
has no matching facts. -/
def evaluateNegation (e : Engine) (atom : Atom) (b : Bindings) :
    Except String (List Bindings) := do
  let found ← evaluateAtom e atom b
  if found.isEmpty then .ok [b] else .ok []

/-- The value-collection loop of `evaluateAggregation`: 1 per row for
`count`, otherwise the row's value of the aggregation variable;
unresolvable or non-numeric rows are skipped. -/
def collectAggValues (op : AggOp) (v : String) (rows : List Bindings) : List ℚ :=
  rows.filterMap fun r =>
    if op = .count then some 1
    else
      match resolveTerm (.var v) r with
      | .error _ => none
      | .ok val =>
          match toFloat64 val with
          | .error _ => none
          | .ok q => some q

mutual

/-- `evaluateBody`: thread candidate bindings left-to-right through the
clause list, short-circuiting when no candidates remain. -/
def evaluateBody (e : Engine) (clauses : List Clause) (bindings : List Bindings) :
    Except String (List Bindings) :=
  match clauses with
  | [] => .ok bindings
  | c :: rest => do
      let newBindings ← evalClauseAll e c bindings
      if newBindings = [] then .ok [] else evaluateBody e rest newBindings

/-- The inner loop of `evaluateBody`: evaluate one clause under each
candidate binding and concatenate the extensions. -/
def evalClauseAll (e : Engine) (c : Clause) (bs : List Bindings) :
    Except String (List Bindings) :=
  match bs with
  | [] => .ok []
  | b :: rest => do
      let extended ← evaluateClause e c b
      let more ← evalClauseAll e c rest
      .ok (extended ++ more)

/-- `evaluateClause`: dispatch on the clause form. -/
def evaluateClause (e : Engine) (c : Clause) (b : Bindings) :
    Except String (List Bindings) :=
  match c with
  | .atomClause a => evaluateAtom e a b
  | .comparison l op r => evaluateComparison e l op r b
  | .assignment v ex => evaluateAssignment e v ex b
  | .aggregation op v body into => evaluateAggregation e op v body into b
  | .negation a => evaluateNegation e a b

/-- `evaluateAggregation`: evaluate the nested body from a clone of the
current bindings, collect numeric values, reduce, and bind the result
to `into`.  `max`/`min`/`avg` of an empty collection yield no
candidates; `count`/`sum` of an empty collection bind 0. -/
def evaluateAggregation (e : Engine) (op : AggOp) (v : String)
    (body : List Clause) (into : String) (b : Bindings) :
    Except String (List Bindings) := do
  let bodyBindings ← evaluateBody e body [b]
  let values := collectAggValues op v bodyBindings
  match op with
  | .count => .ok [bSet b into (.float (values.length : ℚ))]
  | .sum => .ok [bSet b into (.float (values.foldl (· + ·) 0))]
  | .max =>
      match values with
      | [] => .ok []
      | v0 :: rest =>
          .ok [bSet b into (.float (rest.foldl (fun r x => if r < x then x else r) v0))]
  | .min =>
      match values with
      | [] => .ok []
      | v0 :: rest =>
          .ok [bSet b into (.float (rest.foldl (fun r x => if x < r then x else r) v0))]
  | .avg =>
      match values with
      | [] => .ok []
      | _ :: _ =>
          .ok [bSet b into (.float ((values.foldl (· + ·) 0) / (values.length : ℚ)))]

end

/-- `instantiateAtom`: resolve every head argument; an unbound variable
is an error (the caller skips the fact). -/
def instantiateAtom (atom : Atom) (b : Bindings) : Except String Fact := do
  let args ← atom.args.mapM fun t => resolveTerm t b
  .ok ⟨atom.predicate, args⟩

/-- `evaluateRule`: all satisfying bindings of the body, instantiated
into head facts; uninstantiable heads are skipped. -/
def evaluateRule (e : Engine) (rule : Rule) : Except String (List Fact) := do
  let bindings ← evaluateBody e rule.body [([] : Bindings)]
  .ok <| bindings.foldl (fun acc b =>
    match instantiateAtom rule.head b with
    | .ok fact => acc ++ [fact]
    | .error _ => acc) []

/-- The fact-adding loop inside `Evaluate`: add each derived fact that
does not already exist, counting additions. -/
def addDerived (e : Engine) (derived : List Fact) (newFacts : ℕ) : Engine × ℕ :=
  match derived with
  | [] => (e, newFacts)
  | f :: rest =>
      if factExists e f then addDerived e rest newFacts
      else addDerived (addFact e f) rest (newFacts + 1)

/-- One iteration of the `Evaluate` loop over all rules. -/
def onePassGo (e : Engine) (rules : List Rule) (newFacts : ℕ) :
    Except String (Engine × ℕ) :=
  match rules with
  | [] => .ok (e, newFacts)
  | r :: rest => do
      let derived ← evaluateRule e r
      let (e', n') := addDerived e derived newFacts
      onePassGo e' rest n'

def onePass (e : Engine) : Except String (Engine × ℕ) := onePassGo e e.rules 0

/-- `Evaluate`: semi-naive bottom-up fixpoint.  The Go loop is unbounded;
divergence is modelled by fuel exhaustion (an `error` the Go program
would never produce — it would simply keep running). -/
def evaluate (fuel : ℕ) (e : Engine) : Except String Engine :=
  match fuel with
  | 0 => .error "fixpoint iteration bound exceeded"
  | fuel + 1 => do
      let (e', newFacts) ← onePass e
      if newFacts = 0 then .ok e' else evaluate fuel e'

/-! ## Fact generation (facts.go) -/

/-- Values of a trace event's `args` map (`interface{}`, restricted to
the string | number | boolean kinds the data model specifies). -/
inductive ArgValue where
  | str : String → ArgValue
  | num : ℚ → ArgValue
  | bool : Bool → ArgValue
deriving DecidableEq, Repr

/-- `TraceEvent` (facts.go). -/
structure TraceEvent where
  name : String
  cat : String
  ts : ℚ
  dur : ℚ
  pid : ℤ
  tid : ℤ
  args : List (String × ArgValue)
deriving DecidableEq, Repr

def argLookup (e : TraceEvent) (k : String) : Option ArgValue :=
  lookupAssoc e.args k

/-- `e.Args["mnemonic"].(string)`: present and of string kind. -/
def mnemonicStr (e : TraceEvent) : Option String :=
  match argLookup e "mnemonic" with
  | some (.str s) => some s
  | _ => none

/-- `target, ok := e.Args["target"].(string); ok && target != ""`. -/
def targetStr (e : TraceEvent) : Option String :=
  match argLookup e "target" with
  | some (.str s) => if s = "" then none else some s
  | _ => none

/-- `e.Args["mnemonic"] != nil` (any kind of value counts). -/
def hasMnemonicArg (e : TraceEvent) : Bool := (argLookup e "mnemonic").isSome

/-- `isActionableCategory`. -/
def isActionableCategory (cat : String) : Bool :=
  cat = "action processing" ∨ cat = "complete action execution" ∨
    cat = "Fetching repository" ∨ cat = "package creation"

/-- `isSystemCategory`. -/
def isSystemCategory (cat : String) : Bool :=
  cat = "general information" ∨ cat = "build phase marker" ∨
    cat = "gc notification" ∨ cat = "skyframe evaluator" ∨
    cat = "action count (local)" ∨ cat = "critical path component" ∨
    cat = "Conflict checking" ∨ cat = "bazel module processing"

/-- The actionability rule of `GenerateFacts`. -/
def isActionableEvent (e : TraceEvent) : Bool :=
  (targetStr e).isSome || (isActionableCategory e.cat && hasMnemonicArg e)

/-- The per-event facts emitted by the first pass of `GenerateFacts`,
in emission order. -/
def perEventFacts (i : ℕ) (e : TraceEvent) : List Fact :=
  [⟨"trace_event", [.int i, .str e.name, .str e.cat, .float e.ts, .float e.dur]⟩,
   ⟨"trace_event_tid", [.int i, .int e.tid]⟩,
   ⟨"trace_event_pid", [.int i, .int e.pid]⟩]
  ++ (match mnemonicStr e with
      | some m => [⟨"trace_event_mnemonic", [.int i, .str m]⟩]
      | none => [])
  ++ (match targetStr e with
      | some t => [⟨"trace_event_target", [.int i, .str t]⟩, ⟨"has_target", [.int i]⟩]
      | none => [])
  ++ (if isActionableEvent e then [⟨"is_actionable", [.int i]⟩] else [])
  ++ (if isSystemCategory e.cat then [⟨"is_system", [.int i]⟩] else [])

def sumDur (l : List TraceEvent) : ℚ := l.foldl (fun s e => s + e.dur) 0

/-- `maxEnd`: largest `Ts + Dur`, starting from 0. -/
def maxEndOf (events : List TraceEvent) : ℚ :=
  events.foldl (fun m e => if m < e.ts + e.dur then e.ts + e.dur else m) 0

/-- Keys of a Go map in first-occurrence order.  (Go iterates maps in
unspecified order; only the set of grouped facts is relied upon.) -/
def distinctKeys (l : List String) : List String :=
  l.foldl (fun acc k => if k ∈ acc then acc else acc ++ [k]) []

def categoryTimeFacts (events : List TraceEvent) : List Fact :=
  (distinctKeys (events.map (·.cat))).map fun c =>
    ⟨"category_time", [.str c, .float (sumDur (events.filter (·.cat = c)))]⟩

def categoryCountFacts (events : List TraceEvent) : List Fact :=
  (distinctKeys (events.map (·.cat))).map fun c =>
    ⟨"category_count", [.str c, .int (events.filter (·.cat = c)).length]⟩

/-- Events contributing to the mnemonic aggregates: mnemonic is a string
and the event has a non-empty target. -/
def mnemonicEvents (events : List TraceEvent) : List TraceEvent :=
  events.filter fun e => (mnemonicStr e).isSome && (targetStr e).isSome

def mnemonicTimeFacts (events : List TraceEvent) : List Fact :=
  (distinctKeys ((mnemonicEvents events).filterMap mnemonicStr)).map fun m =>
    ⟨"mnemonic_time",
     [.str m, .float (sumDur ((mnemonicEvents events).filter (mnemonicStr · = some m)))]⟩

def mnemonicCountFacts (events : List TraceEvent) : List Fact :=
  (distinctKeys ((mnemonicEvents events).filterMap mnemonicStr)).map fun m =>
    ⟨"mnemonic_count",
     [.str m, .int ((mnemonicEvents events).filter (mnemonicStr · = some m)).length]⟩

/-- The target aggregates.  NOTE (faithful to the source): the Go code
computes both a `targetTime` and a `targetCount` map, but its emission
loop only ranges over `targetTime` — no `target_count` fact is ever
appended. -/
def targetTimeFacts (events : List TraceEvent) : List Fact :=
  (distinctKeys (events.filterMap targetStr)).map fun t =>
    ⟨"target_time", [.str t, .float (sumDur (events.filter (targetStr · = some t)))]⟩

/-! ### `computeMaxConcurrency` -/

/-- A sweep time point: `(time, isStart)`. -/
structure Point where
  time : ℚ
  isStart : Bool
deriving DecidableEq, Repr

/-- The point list: for each event in order, `(Ts, start)` then
`(Ts+Dur, end)`. -/
def eventPoints (events : List TraceEvent) : List Point :=
  events.foldr (fun e acc => ⟨e.ts, true⟩ :: ⟨e.ts + e.dur, false⟩ :: acc) []

/-- The source's in-place exchange sort
(`for i … for j>i … if out-of-order swap`) in functional form: one inner
`j`-loop starting from slot value `cur` returns the minimum that ends up
in slot `i` together with the remaining slots `i+1 …` after all swaps. -/
def selPass {α : Type} (gt : α → α → Bool) (cur : α) : List α → α × List α
  | [] => (cur, [])
  | y :: ys =>
      if gt cur y then
        ((selPass gt y ys).1, cur :: (selPass gt y ys).2)
      else
        ((selPass gt cur ys).1, y :: (selPass gt cur ys).2)

/-- Outer loop of the exchange sort.  `selPass` preserves length, so
fuel `l.length` always suffices. -/
def selSortGo {α : Type} (gt : α → α → Bool) : ℕ → List α → List α
  | _, [] => []
  | 0, l => l
  | n + 1, x :: xs =>
      (selPass gt x xs).1 :: selSortGo gt n (selPass gt x xs).2

def selSort {α : Type} (gt : α → α → Bool) (l : List α) : List α :=
  selSortGo gt l.length l

/-- The swap condition of the point sort: `points[i].time > points[j].time`
or equal times with an end before a start. -/
def ptGt (p q : Point) : Bool :=
  decide (q.time < p.time) || (p.time == q.time && !p.isStart && q.isStart)

/-- The sweep loop: `+1` at a start (recording the maximum), `-1` at an
end. -/
def sweepGo : List Point → ℤ → ℤ → ℤ
  | [], _, maxc => maxc
  | p :: ps, cur, maxc =>
      if p.isStart then
        sweepGo ps (cur + 1) (if maxc < cur + 1 then cur + 1 else maxc)
      else
        sweepGo ps (cur - 1) maxc

/-- `computeMaxConcurrency`. -/
def computeMaxConcurrency (events : List TraceEvent) : ℤ :=
  if events.isEmpty then 0
  else sweepGo (selSort ptGt (eventPoints events)) 0 0

/-! ### `computeCriticalPath` -/

/-- The `actionableEvent` record of `computeCriticalPath`. -/
structure ActEvent where
  idx : ℕ
  duration : ℚ
  name : String
  target : String
deriving DecidableEq, Repr

/-- `computeCriticalPath`. -/
def computeCriticalPath (events : List TraceEvent) : List Fact :=
  if events.isEmpty then []
  else
    let maxEnd := maxEndOf events
    let best := events.enum.foldl
      (fun (acc : Option (ℕ × TraceEvent) × ℚ) ie =>
        match targetStr ie.2 with
        | some _ =>
            if acc.2 < ie.2.ts + ie.2.dur then (some ie, ie.2.ts + ie.2.dur) else acc
        | none => acc)
      (none, 0)
    let endFacts :=
      match best.1 with
      | none => []
      | some (idx, ev) =>
          let target := match argLookup ev "target" with
            | some (.str t) => t
            | _ => ""
          [⟨"critical_path_end", [.int idx, .str ev.name, .float ev.dur, .str target]⟩]
          ++ (if 0 < maxEnd then
                [⟨"critical_path_percent", [.float (ev.dur / maxEnd * 100)]⟩]
              else [])
    let actionable := events.enum.filterMap fun ie =>
      (targetStr ie.2).map fun t => ActEvent.mk ie.1 ie.2.dur ie.2.name t
    let sorted := selSort (fun a b => decide (a.duration < b.duration)) actionable
    let bottleneckFacts := (sorted.take 5).map fun a =>
      let pct := if 0 < maxEnd then a.duration / maxEnd * 100 else 0
      Fact.mk "potential_bottleneck"
        [.int a.idx, .str a.name, .float a.duration, .float pct, .str a.target]
    endFacts ++ bottleneckFacts

/-- `GenerateFacts`: per-event facts, whole-trace aggregates, grouped
aggregates, concurrency and critical-path facts, in emission order. -/
def GenerateFacts (events : List TraceEvent) : List Fact :=
  (events.enum.flatMap fun ie => perEventFacts ie.1 ie.2)
  ++ [⟨"total_duration", [.float (maxEndOf events)]⟩,
      ⟨"total_action_time", [.float (sumDur events)]⟩,
      ⟨"total_actions", [.int events.length]⟩,
      ⟨"actionable_time", [.float (sumDur (events.filter isActionableEvent))]⟩,
      ⟨"actionable_count", [.int (events.filter isActionableEvent).length]⟩]
  ++ categoryTimeFacts events
  ++ categoryCountFacts events
  ++ mnemonicTimeFacts events
  ++ mnemonicCountFacts events
  ++ targetTimeFacts events
  ++ [⟨"max_concurrency", [.int (computeMaxConcurrency events)]⟩]
  ++ computeCriticalPath events

/-! ## Parser (parser.go)

The token stream is modelled as a `List Token`; each parsing function
consumes from the front and returns the rest.  `peek` past the end is
the EOF token, as in the source.  Number tokens carry their parsed
numeric payload (the lexer only emits digit strings, for which Go's
`ParseInt`-then-`ParseFloat` fallback is total).  The recursive-descent
functions take explicit fuel; every theorem is stated relative to a
successful parse, so fuel adequacy is part of the hypotheses. -/

inductive NumLit where
  | int : ℤ → NumLit
  | float : ℚ → NumLit
deriving DecidableEq, Repr

inductive Token where
  | eof
  | ident : String → Token
  | varT : String → Token
  | strT : String → Token
  | number : NumLit → Token
  | wildcard
  | ruleK | whenK | thenK | suggestionK | aggregateK | notK
  | countK | sumK | maxK | minK | avgK
  | implies | comma | dot | lparen | rparen
  | lbracket | rbracket | lbrace | rbrace | colon
  | eq | neq | lt | lte | gt | gte
  | plus | minus | star | slash | percent
deriving DecidableEq, Repr

/-- `p.peek()`: EOF beyond the end. -/
def peekT (toks : List Token) : Token := toks.headD .eof

/-- `parseTerm`: variable, wildcard, string, number, or identifier
(`true`/`false` lex as identifiers and become boolean constants; every
other identifier is a string constant). -/
def parseTerm : List Token → Except String (Term × List Token)
  | .varT v :: rest => .ok (.var v, rest)
  | .wildcard :: rest => .ok (.wildcard, rest)
  | .strT s :: rest => .ok (.const (.str s), rest)
  | .number (.int n) :: rest => .ok (.const (.int n), rest)
  | .number (.float q) :: rest => .ok (.const (.float q), rest)
  | .ident s :: rest =>
      if s = "true" then .ok (.const (.bool true), rest)
      else if s = "false" then .ok (.const (.bool false), rest)
      else .ok (.const (.str s), rest)
  | _ => .error "expected term"

/-- Argument loop of `parseAtom`. -/
def parseAtomArgs : ℕ → List Token → Except String (List Term × List Token)
  | 0, _ => .error "parser out of fuel"
  | n + 1, toks =>
      if peekT toks = .rparen then .ok ([], toks)
      else do
        let (t, t1) ← parseTerm toks
        if peekT t1 = .comma then do
          let (ts, t2) ← parseAtomArgs n (t1.drop 1)
          .ok (t :: ts, t2)
        else .ok ([t], t1)

/-- `parseAtom`. -/
def parseAtom (n : ℕ) (toks : List Token) : Except String (Atom × List Token) :=
  match toks with
  | .ident p :: .lparen :: rest => do
      let (args, t1) ← parseAtomArgs n rest
      match t1 with
      | .rparen :: t2 => .ok (⟨p, args⟩, t2)
      | _ => .error "expected rparen"
  | _ => .error "expected IDENT and lparen"

mutual

/-- `parseExpression`. -/
def parseExpression : ℕ → List Token → Except String (Expr × List Token)
  | 0, _ => .error "parser out of fuel"
  | n + 1, toks => parseAdditive n toks

/-- `parseAdditive`. -/
def parseAdditive : ℕ → List Token → Except String (Expr × List Token)
  | 0, _ => .error "parser out of fuel"
  | n + 1, toks => do
      let (left, t1) ← parseMultiplicative n toks
      parseAdditiveLoop n left t1

/-- The `+`/`-` loop of `parseAdditive`. -/
def parseAdditiveLoop : ℕ → Expr → List Token → Except String (Expr × List Token)
  | 0, _, _ => .error "parser out of fuel"
  | n + 1, left, toks =>
      match peekT toks with
      | .plus => do
          let (right, t2) ← parseMultiplicative n (toks.drop 1)
          parseAdditiveLoop n (.binaryExpr left .add right) t2
      | .minus => do
          let (right, t2) ← parseMultiplicative n (toks.drop 1)
          parseAdditiveLoop n (.binaryExpr left .sub right) t2
      | _ => .ok (left, toks)

/-- `parseMultiplicative`. -/
def parseMultiplicative : ℕ → List Token → Except String (Expr × List Token)
  | 0, _ => .error "parser out of fuel"
  | n + 1, toks => do
      let (left, t1) ← parseUnary n toks
      parseMultiplicativeLoop n left t1

/-- The `*`/`/`/`%` loop of `parseMultiplicative`. -/
def parseMultiplicativeLoop : ℕ → Expr → List Token → Except String (Expr × List Token)
  | 0, _, _ => .error "parser out of fuel"
  | n + 1, left, toks =>
      match peekT toks with
      | .star => do
          let (right, t2) ← parseUnary n (toks.drop 1)
          parseMultiplicativeLoop n (.binaryExpr left .mul right) t2
      | .slash => do
          let (right, t2) ← parseUnary n (toks.drop 1)
          parseMultiplicativeLoop n (.binaryExpr left .div right) t2
      | .percent => do
          let (right, t2) ← parseUnary n (toks.drop 1)
          parseMultiplicativeLoop n (.binaryExpr left .mod right) t2
      | _ => .ok (left, toks)

/-- `parseUnary` (a pass-through in the source). -/
def parseUnary : ℕ → List Token → Except String (Expr × List Token)
  | 0, _ => .error "parser out of fuel"
  | n + 1, toks => parsePrimary n toks

/-- `parsePrimary`: parenthesised expression, function call, or term. -/
def parsePrimary : ℕ → List Token → Except String (Expr × List Token)
  | 0, _ => .error "parser out of fuel"
  | n + 1, toks =>
      match toks with
      | .lparen :: rest => do
          let (e, t1) ← parseExpression n rest
          match t1 with
          | .rparen :: t2 => .ok (e, t2)
          | _ => .error "expected rparen"
      | .ident _ :: .lparen :: _ => parseFunctionCall n toks
      | _ => do
          let (t, t1) ← parseTerm toks
          .ok (.termExpr t, t1)

/-- `parseFunctionCall`. -/
def parseFunctionCall : ℕ → List Token → Except String (Expr × List Token)
  | 0, _ => .error "parser out of fuel"
  | n + 1, toks =>
      match toks with
      | .ident name :: .lparen :: rest => do
          let (args, t1) ← parseCallArgs n rest
          match t1 with
          | .rparen :: t2 => .ok (.functionCall name args, t2)
          | _ => .error "expected rparen"
      | _ => .error "expected function call"

/-- Argument loop of `parseFunctionCall`. -/
def parseCallArgs : ℕ → List Token → Except String (List Expr × List Token)
  | 0, _ => .error "parser out of fuel"
  | n + 1, toks =>
      if peekT toks = .rparen then .ok ([], toks)
      else do
        let (e, t1) ← parseExpression n toks
        if peekT t1 = .comma then do
          let (es, t2) ← parseCallArgs n (t1.drop 1)
          .ok (e :: es, t2)
        else .ok ([e], t1)

end

def tokToCompOp : Token → Option ComparisonOp
  | .eq => some .eq
  | .neq => some .neq
  | .lt => some .lt
  | .lte => some .lte
  | .gt => some .gt
  | .gte => some .gte
  | _ => none

/-- `isComparisonOp`. -/
def isComparisonOpTok (t : Token) : Bool := (tokToCompOp t).isSome

def tokToAggOp : Token → Option AggOp
  | .countK => some .count
  | .sumK => some .sum
  | .maxK => some .max
  | .minK => some .min
  | .avgK => some .avg
  | _ => none

/-- `parseComparison`. -/
def parseComparison (toks : List Token) : Except String (Clause × List Token) := do
  let (left, t1) ← parseTerm toks
  match t1 with
  | opTok :: t2 =>
      match tokToCompOp opTok with
      | some cop => do
          let (right, t3) ← parseTerm t2
          .ok (.comparison left cop right, t3)
      | none => .error "expected comparison operator"
  | [] => .error "expected comparison operator"

/-- `parseAssignmentOrComparison`: consume the variable and the `=`,
tentatively parse the RHS as an expression, and emit a Comparison iff
the expression is structurally a single term. -/
def parseAssignmentOrComparison (n : ℕ) (toks : List Token) :
    Except String (Clause × List Token) :=
  match toks with
  | .varT v :: _ :: rest => do
      let (expr, t1) ← parseExpression n rest
      match expr with
      | .termExpr t => .ok (.comparison (.var v) .eq t, t1)
      | _ => .ok (.assignment v expr, t1)
  | _ => .error "expected variable and eq"

mutual

/-- `parseBody`. -/
def parseBody : ℕ → List Token → Except String (List Clause × List Token)
  | 0, _ => .error "parser out of fuel"
  | n + 1, toks => do
      let (c, t1) ← parseClause n toks
      if peekT t1 = .comma then do
        let (cs, t2) ← parseBody n (t1.drop 1)
        .ok (c :: cs, t2)
      else .ok ([c], t1)

/-- `parseClause`: negation, aggregation, variable-led assignment or
comparison (by one-token lookahead), else an atom. -/
def parseClause : ℕ → List Token → Except String (Clause × List Token)
  | 0, _ => .error "parser out of fuel"
  | n + 1, toks =>
      if peekT toks = .notK then do
        let (a, t1) ← parseAtom n (toks.drop 1)
        .ok (.negation a, t1)
      else if peekT toks = .aggregateK then parseAggregation n toks
      else
        match toks with
        | .varT v :: rest =>
            if peekT rest = Token.eq then parseAssignmentOrComparison n toks
            else if isComparisonOpTok (peekT rest) then parseComparison toks
            else do
              let (a, t1) ← parseAtom n toks
              .ok (.atomClause a, t1)
        | _ => do
            let (a, t1) ← parseAtom n toks
            .ok (.atomClause a, t1)

/-- `parseAggregation`. -/
def parseAggregation : ℕ → List Token → Except String (Clause × List Token)
  | 0, _ => .error "parser out of fuel"
  | n + 1, toks =>
      match toks with
      | .aggregateK :: .lparen :: opTok :: rest1 => do
          let op ← (match tokToAggOp opTok with
            | some op => Except.ok op
            | none =>
                match opTok with
                | .ident s =>
                    if s = "count" then Except.ok AggOp.count
                    else if s = "sum" then Except.ok AggOp.sum
                    else if s = "max" then Except.ok AggOp.max
                    else if s = "min" then Except.ok AggOp.min
                    else if s = "avg" then Except.ok AggOp.avg
                    else Except.error "unknown aggregate operation"
                | _ => Except.error "expected aggregate operator")
          let (aggVar, rest2) ←
            (if op = AggOp.count then Except.ok ("", rest1)
             else
               match rest1 with
               | .lparen :: .varT v :: .rparen :: r2 => Except.ok (v, r2)
               | _ => Except.error "expected aggregation variable")
          match rest2 with
          | .comma :: rest3 => do
              let (body, rest4) ← parseBody n rest3
              match rest4 with
              | .comma :: .varT intoV :: .rparen :: rest5 =>
                  .ok (.aggregation op aggVar body intoV, rest5)
              | _ => .error "expected comma, variable and rparen"
          | _ => .error "expected comma"
      | _ => .error "expected aggregate and lparen"

end

/-! ## Suggestions (suggestions/evaluator.go) -/

structure Metric where
  label : String
  value : String
deriving DecidableEq, Repr

structure Suggestion where
  id : String
  ruleId : String
  type : String
  impact : String
  title : String
  body : String
  target : String
  metrics : List Metric
deriving DecidableEq, Repr

/-- `impactOrder`. -/
def impactOrder (impact : String) : ℕ :=
  if impact = "high" then 0
  else if impact = "medium" then 1
  else if impact = "low" then 2
  else 3

/-- The comparator passed to the sort in `Evaluate`. -/
def suggestionLess (a b : Suggestion) : Bool :=
  impactOrder a.impact < impactOrder b.impact

/-- Modelled from the Go standard library contract of `sort.Slice`
(the sort implementation is not part of this repository): the output is
a permutation of the input in which no later element is `less` than an
earlier one.  `sort.Slice` explicitly does NOT guarantee stability. -/
def sortSliceResult {α : Type} (less : α → α → Bool) (inp out : List α) : Prop :=
  inp.Perm out ∧ out.Pairwise fun a b => less b a = false

/-- `key := s.RuleID + ":" + s.Target` in `deduplicateSuggestions`. -/
def dedupKey (s : Suggestion) : String := s.ruleId ++ ":" ++ s.target

/-- The loop of `deduplicateSuggestions`: keep the first item carrying
each key. -/
def dedupGo (seen : List String) (result : List Suggestion) :
    List Suggestion → List Suggestion
  | [] => result
  | s :: rest =>
      if dedupKey s ∈ seen then dedupGo seen result rest
      else dedupGo (dedupKey s :: seen) (result ++ [s]) rest

/-- `deduplicateSuggestions`. -/
def deduplicateSuggestions (l : List Suggestion) : List Suggestion :=
  dedupGo [] [] l

/-! ## Formatting (the repository's formatting built-ins) -/

/-- Round to the nearest integer, ties to even (the rounding Go's
`%.Nf` formatting performs). -/
def roundHalfEven (q : ℚ) : ℤ :=
  if q - ⌊q⌋ < 1/2 then ⌊q⌋
  else if 1/2 < q - ⌊q⌋ then ⌊q⌋ + 1
  else if ⌊q⌋ % 2 = 0 then ⌊q⌋ else ⌊q⌋ + 1

/-- `fmt.Sprintf("%.<prec>f", q)` for a value that the rational `q`
represents exactly. -/
def fmtFixed (prec : ℕ) (q : ℚ) : String :=
  let n := roundHalfEven (q * 10 ^ prec)
  let sign := if n < 0 then "-" else ""
  let ds := (toString n.natAbs).data
  if prec = 0 then sign ++ String.mk ds
  else
    let ds := List.replicate (prec + 1 - ds.length) '0' ++ ds
    sign ++ String.mk (ds.take (ds.length - prec)) ++ "." ++
      String.mk (ds.drop (ds.length - prec))

/-- `FormatDuration` (the `format_time` built-in).  Go's `int(x)`
truncates toward zero (`goTrunc`); `%` on two nonnegative ints agrees
with `Int.emod`, and both operands are nonnegative in every branch that
uses it. -/
def FormatDuration (us : ℚ) : String :=
  if us < 1000 then fmtFixed 0 us ++ "μs"
  else
    let ms := us / 1000
    if ms < 1000 then fmtFixed 1 ms ++ "ms"
    else
      let s := ms / 1000
      if s < 60 then fmtFixed 2 s ++ "s"
      else
        let m := s / 60
        if m < 60 then
          fmtFixed 0 m ++ "m " ++ toString (goTrunc s % 60) ++ "s"
        else
          let h := m / 60
          fmtFixed 0 h ++ "h " ++ toString (goTrunc m % 60) ++ "m"

/-- The core of the `truncate` built-in: Go strings are byte sequences,
modelled as `List Char`; `n` is `int(maxLen)`.  The Go slice
`str[:n-3]` panics when `n - 3 < 0` (slice bounds out of range),
modelled as `none`. -/
def truncateBuiltin (s : List Char) (n : ℤ) : Option (List Char) :=
  if (n : ℤ) < s.length then
    if 0 ≤ n - 3 then some (s.take (n - 3).toNat ++ ['.', '.', '.'])
    else none
  else some s

/-! ## Specification-side definitions

These follow the wording of the specification (not the source); theorems
below compare them with the definitions translated from the source. -/

open Classical in
/-- Spec wording of claim C2: the number of events whose half-open
interval `[start, start+dur)` contains the real time `t`. -/
noncomputable def countHalfOpenAt (events : List TraceEvent) (t : ℝ) : ℕ :=
  events.countP fun e => decide ((e.ts : ℝ) ≤ t ∧ t < (e.ts : ℝ) + (e.dur : ℝ))

open Classical in
/-- Closed-interval variant: the number of events with
`start ≤ t ≤ start+dur` (what the sweep actually computes). -/
noncomputable def countClosedAt (events : List TraceEvent) (t : ℝ) : ℕ :=
  events.countP fun e => decide ((e.ts : ℝ) ≤ t ∧ t ≤ (e.ts : ℝ) + (e.dur : ℝ))

/-- Spec wording of claim C9 (§6.4 of the specification): thresholds on
`us` itself, minutes = `us / 60·10⁶`, hours = `us / 3600·10⁶`,
integer-second and integer-minute remainders. -/
def specFormatTime (us : ℚ) : String :=
  if us < 1000 then fmtFixed 0 us ++ "μs"
  else if us < 1000000 then fmtFixed 1 (us / 1000) ++ "ms"
  else if us < 60000000 then fmtFixed 2 (us / 1000000) ++ "s"
  else if us < 3600000000 then
    fmtFixed 0 (us / 60000000) ++ "m " ++
      toString (goTrunc (us / 1000000) % 60) ++ "s"
  else
    fmtFixed 0 (us / 3600000000) ++ "h " ++
      toString (goTrunc (us / 60000000) % 60) ++ "m"

/-- Spec wording of claim C7's stability: items of equal impact keep
their relative input order in the output. -/
def keepsEqualImpactOrder (inp out : List Suggestion) : Prop :=
  ∀ i j : Fin inp.length, (i : ℕ) < j →
    impactOrder (inp.get i).impact = impactOrder (inp.get j).impact →
    ∃ k l : Fin out.length, (k : ℕ) < l ∧ out.get k = inp.get i ∧ out.get l = inp.get j

instance (inp out : List Suggestion) : Decidable (keepsEqualImpactOrder inp out) := by
  unfold keepsEqualImpactOrder; infer_instance

/-- The (ruleId, target) pair of claim C8. -/
def pairOf (s : Suggestion) : String × String := (s.ruleId, s.target)

/-! ### Proof infrastructure for the sweep (claim C2) -/

/-- Signed sum of a point list: `+1` per start, `-1` per end. -/
def psum (l : List Point) : ℤ :=
  (l.map fun p => if p.isStart then (1 : ℤ) else -1).sum

/-- The sort's non-strict order: `ptGt p q = false`. -/
def ptLE (p q : Point) : Prop :=
  p.time < q.time ∨ (p.time = q.time ∧ (p.isStart = true ∨ q.isStart = false))

/-- Membership of a point in the downward-closed region determined by a
real threshold `t`: strictly earlier, or at `t` and a start. -/
def pPt (t : ℝ) (p : Point) : Prop :=
  (p.time : ℝ) < t ∨ ((p.time : ℝ) = t ∧ p.isStart = true)

open Classical in
noncomputable def pointCnt (P : Point → Prop) (l : List Point) : ℕ :=
  l.countP fun p => decide (P p)

open Classical in
noncomputable def eventCnt (P : TraceEvent → Prop) (l : List TraceEvent) : ℕ :=
  l.countP fun e => decide (P e)

/-- Spec wording of claim C8's keep-first property: the first item of
every (ruleId, target) class appears in the deduplicated output. -/
def keepsFirstOfEachPair (l : List Suggestion) : Prop :=
  ∀ i : Fin l.length,
    (∀ j : Fin l.length, (j : ℕ) < i → pairOf (l.get j) ≠ pairOf (l.get i)) →
    l.get i ∈ deduplicateSuggestions l

instance (l : List Suggestion) : Decidable (keepsFirstOfEachPair l) := by
  unfold keepsFirstOfEachPair; infer_instance

/-! ## Concrete instances used by witnesses and counterexamples -/

/-- `1 / 0` as a rule-body expression. -/
def divByZeroExpr : Expr :=
  .binaryExpr (.termExpr (.const (.float 1))) .div (.termExpr (.const (.float 0)))

/-- An engine with a single rule whose body divides by zero. -/
def engC1 : Engine :=
  { facts := [], rules := [⟨⟨"p", []⟩, [.assignment "?X" divByZeroExpr]⟩], builtins := [] }

/-- An engine with facts `p(1)`, `p(2)` for the aggregation witness. -/
def engC5 : Engine :=
  { facts := [("p", [⟨"p", [.float 1]⟩, ⟨"p", [.float 2]⟩])], rules := [], builtins := [] }

/-- An engine with no facts, rules or built-ins. -/
def engEmpty : Engine := { facts := [], rules := [], builtins := [] }

/-- Two touching events: `[0,100)` and `[100,150)`. -/
def evC2 : List TraceEvent :=
  [⟨"a", "", 0, 100, 0, 0, []⟩, ⟨"b", "", 100, 50, 0, 0, []⟩]

/-- One actionable event with a target, for the target-aggregate claim. -/
def evC3 : List TraceEvent :=
  [⟨"Compile", "action processing", 0, 1000, 0, 0,
    [("target", .str "//a:b"), ("mnemonic", .str "CppCompile")]⟩]

/-- Two suggestions of equal impact, distinguishable by rule id. -/
def c7A : Suggestion := ⟨"", "r1", "", "high", "t1", "", "", []⟩

def c7B : Suggestion := ⟨"", "r2", "", "high", "t2", "", "", []⟩

/-- Suggestions whose dedup keys collide across distinct
(ruleId, target) pairs: all three have key `"a:b:c"`. -/
def c8A : Suggestion := ⟨"", "a", "", "high", "first", "", "b:c", []⟩

def c8B : Suggestion := ⟨"", "a:b", "", "high", "second", "", "c", []⟩

def c8C : Suggestion := ⟨"", "a:b", "", "high", "third", "", "c", []⟩

/-! # Theorems -/

/-! ## Generic helper lemmas -/

@[simp] theorem except_ok_bind {ε α β : Type} (a : α) (f : α → Except ε β) :
    (Except.ok a >>= f) = f a := rfl

@[simp] theorem except_error_bind {ε α β : Type} (e : ε) (f : α → Except ε β) :
    ((Except.error e : Except ε α) >>= f) = Except.error e := rfl

@[simp] theorem except_pure_eq {ε α : Type} (a : α) :
    (pure a : Except ε α) = Except.ok a := rfl

/-! ## C10: the `truncate` built-in -/

/-- Claim C10: `truncate` returns the string unchanged when it fits
(`len(s) ≤ n`); when `len(s) > n` and `n ≥ 3` it returns the first
`n − 3` bytes followed by `"..."`, a result of exactly `n` bytes; and
when `len(s) > n` and `n < 3` the slice lower bound `n − 3` is negative
and the out-of-range branch is reached. -/
theorem C10_truncate_spec (s : List Char) (n : ℤ) :
    ((s.length : ℤ) ≤ n → truncateBuiltin s n = some s) ∧
    (n < (s.length : ℤ) → 3 ≤ n →
      truncateBuiltin s n = some (s.take (n - 3).toNat ++ ['.', '.', '.']) ∧
      ((s.take (n - 3).toNat ++ ['.', '.', '.']).length : ℤ) = n) ∧
    (n < (s.length : ℤ) → n < 3 → truncateBuiltin s n = none) := by
  refine ⟨fun h => ?_, fun h1 h2 => ⟨?_, ?_⟩, fun h1 h2 => ?_⟩
  · unfold truncateBuiltin
    rw [if_neg (by omega)]
  · unfold truncateBuiltin
    rw [if_pos h1, if_pos (by omega)]
  · simp only [List.length_append, List.length_take, List.length_cons,
      List.length_nil]
    omega
  · unfold truncateBuiltin
    rw [if_pos h1, if_neg (by omega)]

/-- Witness for C10 at concrete inputs covering all three branches. -/
theorem C10_truncate_witness :
    truncateBuiltin "hello".data 10 = some "hello".data ∧
    truncateBuiltin "hello!".data 5 = some "he...".data ∧
    truncateBuiltin "hello".data 2 = none := by
  refine ⟨(C10_truncate_spec "hello".data 10).1 (by decide), ?_, ?_⟩
  · exact ((C10_truncate_spec "hello!".data 5).2.1 (by decide) (by decide)).1.trans
      (by decide)
  · exact (C10_truncate_spec "hello".data 2).2.2 (by decide) (by decide)

/-! ## C9: `format_time` / `FormatDuration` -/

/-- Claim C9: for nonnegative microseconds, `FormatDuration` realises
exactly the specification's five bands with thresholds on `us` itself
(`specFormatTime`): `%.0fμs` below 1000, `%.1fms` below 10⁶, `%.2fs`
below 60·10⁶, `%.0fm %ds` below 3600·10⁶ with the integer-second
remainder, and `%.0fh %dm` otherwise with the integer-minute
remainder. -/
theorem C9_format_time_spec (us : ℚ) (h : 0 ≤ us) :
    FormatDuration us = specFormatTime us := by
  have d1 : us / 1000 / 1000 = us / 1000000 := by rw [div_div]; norm_num
  have d2 : us / 1000000 / 60 = us / 60000000 := by rw [div_div]; norm_num
  have d3 : us / 60000000 / 60 = us / 3600000000 := by rw [div_div]; norm_num
  have t2 : us / 1000 < 1000 ↔ us < 1000000 := by
    rw [div_lt_iff₀ (by norm_num : (0:ℚ) < 1000)]; norm_num
  have t3 : us / 1000000 < 60 ↔ us < 60000000 := by
    rw [div_lt_iff₀ (by norm_num : (0:ℚ) < 1000000)]; norm_num
  have t4 : us / 60000000 < 60 ↔ us < 3600000000 := by
    rw [div_lt_iff₀ (by norm_num : (0:ℚ) < 60000000)]; norm_num
  simp only [FormatDuration, specFormatTime, d1, d2, d3, t2, t3, t4]

/-- Witness for C9 at 1.5 s (= 1,500,000 μs); the common value renders
as `"1.50s"`. -/
theorem C9_format_time_witness :
    FormatDuration 1500000 = specFormatTime 1500000 ∧
    specFormatTime 1500000 = "1.50s" := by
  refine ⟨C9_format_time_spec 1500000 (by norm_num), ?_⟩
  norm_num [specFormatTime, fmtFixed, roundHalfEven]
  decide

/-! ## C6: parser tie-breaker for `?V = RHS` -/

/-- Claim C6: after `?V =`, the parser tentatively parses the RHS as an
expression; if the parsed expression is structurally a single term the
clause is a Comparison with operator `=`, otherwise (binary expression
or function call) an Assignment of the expression to `?V`. -/
theorem C6_assignment_comparison_tiebreak (n : ℕ) (v : String)
    (rest rest' : List Token) (expr : Expr)
    (h : parseExpression n rest = .ok (expr, rest')) :
    (∀ t, expr = .termExpr t →
      parseClause (n + 1) (.varT v :: .eq :: rest) =
        .ok (.comparison (.var v) .eq t, rest')) ∧
    ((∀ t, expr ≠ .termExpr t) →
      parseClause (n + 1) (.varT v :: .eq :: rest) =
        .ok (.assignment v expr, rest')) := by
  have hpc : parseClause (n + 1) (.varT v :: .eq :: rest) =
      parseAssignmentOrComparison n (.varT v :: .eq :: rest) := by
    simp [parseClause, peekT]
  constructor
  · rintro t rfl
    simp [hpc, parseAssignmentOrComparison, h]
  · intro ht
    cases expr with
    | termExpr t => exact absurd rfl (ht t)
    | binaryExpr l op r => simp [hpc, parseAssignmentOrComparison, h]
    | functionCall name args => simp [hpc, parseAssignmentOrComparison, h]

/-- Witness for C6: `?V = 5` parses as a Comparison, `?V = 1 + 2` as an
Assignment. -/
theorem C6_witness :
    parseClause 7 [.varT "?V", .eq, .number (.int 5), .dot] =
      .ok (.comparison (.var "?V") .eq (.const (.int 5)), [.dot]) ∧
    parseClause 7 [.varT "?V", .eq, .number (.int 1), .plus, .number (.int 2), .dot] =
      .ok (.assignment "?V" (.binaryExpr (.termExpr (.const (.int 1))) .add
        (.termExpr (.const (.int 2)))), [.dot]) := by
  constructor
  · exact (C6_assignment_comparison_tiebreak 6 "?V" [.number (.int 5), .dot] [.dot]
      (.termExpr (.const (.int 5)))
      (by simp [parseExpression, parseAdditive, parseMultiplicative, parseUnary,
            parsePrimary, parseTerm, parseAdditiveLoop, parseMultiplicativeLoop,
            peekT])).1 _ rfl
  · exact (C6_assignment_comparison_tiebreak 6 "?V"
      [.number (.int 1), .plus, .number (.int 2), .dot] [.dot]
      (.binaryExpr (.termExpr (.const (.int 1))) .add (.termExpr (.const (.int 2))))
      (by simp [parseExpression, parseAdditive, parseMultiplicative, parseUnary,
            parsePrimary, parseTerm, parseAdditiveLoop, parseMultiplicativeLoop,
            peekT])).2 (by intro t hEq; simp at hEq)

/-! ## C1: division by zero inside an Assignment -/

/-- Amended claim C1: every expression-evaluation error inside an
Assignment — division by zero included — merely drops the candidate
binding (`evaluateAssignment` returns no candidates and no error);
nothing is surfaced to `Evaluate`. -/
theorem C1_assignment_swallows_errors (e : Engine) (v : String) (ex : Expr)
    (b : Bindings) (msg : String)
    (h : evaluateExpression e ex b = .error msg) :
    evaluateClause e (.assignment v ex) b = .ok [] := by
  simp [evaluateClause, evaluateAssignment, h]

/-- Witness for C1: a concrete engine and the expression `1 / 0`. -/
theorem C1_witness :
    evaluateClause engC1 (.assignment "?X" divByZeroExpr) [] = .ok [] :=
  C1_assignment_swallows_errors engC1 "?X" divByZeroExpr [] "division by zero"
    (by simp [divByZeroExpr, evaluateExpression, resolveTerm, toFloat64])

/-- Counterexample to C1 as stated: the body of `engC1`'s only rule
divides by zero, yet `Evaluate` succeeds (it does not return an error;
the candidate is silently dropped by `evaluateAssignment`). -/
theorem C1_counterexample :
    evaluateExpression engC1 divByZeroExpr [] = .error "division by zero" ∧
    evaluate 1 engC1 = .ok engC1 := by
  have hdiv : evaluateExpression engC1 divByZeroExpr ([] : Bindings) =
      .error "division by zero" := by
    simp [divByZeroExpr, evaluateExpression, resolveTerm, toFloat64]
  refine ⟨hdiv, ?_⟩
  simp only [engC1] at hdiv
  simp [evaluate, onePass, onePassGo, engC1, evaluateRule, evaluateBody,
    evalClauseAll, evaluateClause, evaluateAssignment, hdiv, addDerived]

/-! ## C5: aggregation semantics -/

theorem foldl_max_mem (l : List ℚ) (v0 : ℚ) :
    l.foldl (fun r x => if r < x then x else r) v0 ∈ v0 :: l := by
  induction l generalizing v0 with
  | nil => simp
  | cons y ys ih =>
    simp only [List.foldl_cons]
    have h := ih (if v0 < y then y else v0)
    rcases List.mem_cons.mp h with h | h
    · rw [h]
      split_ifs with hvy
      · simp
      · simp
    · simp [List.mem_cons.mpr (Or.inr (List.mem_cons.mpr (Or.inr h)))]

theorem foldl_max_le (l : List ℚ) (v0 : ℚ) :
    ∀ x ∈ v0 :: l, x ≤ l.foldl (fun r x => if r < x then x else r) v0 := by
  induction l generalizing v0 with
  | nil => simp
  | cons y ys ih =>
    intro x hx
    simp only [List.foldl_cons]
    have hv0 : v0 ≤ (if v0 < y then y else v0) := by
      split_ifs with hvy
      · exact le_of_lt hvy
      · exact le_refl _
    have hy : y ≤ (if v0 < y then y else v0) := by
      split_ifs with hvy
      · exact le_refl _
      · exact le_of_not_lt hvy
    have hhead := ih (if v0 < y then y else v0) _ (List.mem_cons_self _ _)
    rcases List.mem_cons.mp hx with rfl | hx
    · exact le_trans hv0 hhead
    · rcases List.mem_cons.mp hx with rfl | hx
      · exact le_trans hy hhead
      · exact ih _ x (List.mem_cons.mpr (Or.inr hx))

theorem foldl_min_mem (l : List ℚ) (v0 : ℚ) :
    l.foldl (fun r x => if x < r then x else r) v0 ∈ v0 :: l := by
  induction l generalizing v0 with
  | nil => simp
  | cons y ys ih =>
    simp only [List.foldl_cons]
    have h := ih (if y < v0 then y else v0)
    rcases List.mem_cons.mp h with h | h
    · rw [h]
      split_ifs with hvy
      · simp
      · simp
    · simp [List.mem_cons.mpr (Or.inr (List.mem_cons.mpr (Or.inr h)))]

theorem foldl_min_ge (l : List ℚ) (v0 : ℚ) :
    ∀ x ∈ v0 :: l, l.foldl (fun r x => if x < r then x else r) v0 ≤ x := by
  induction l generalizing v0 with
  | nil => simp
  | cons y ys ih =>
    intro x hx
    simp only [List.foldl_cons]
    have hv0 : (if y < v0 then y else v0) ≤ v0 := by
      split_ifs with hvy
      · exact le_of_lt hvy
      · exact le_refl _
    have hy : (if y < v0 then y else v0) ≤ y := by
      split_ifs with hvy
      · exact le_refl _
      · exact le_of_not_lt hvy
    have hhead := ih (if y < v0 then y else v0) _ (List.mem_cons_self _ _)
    rcases List.mem_cons.mp hx with rfl | hx
    · exact le_trans hhead hv0
    · rcases List.mem_cons.mp hx with rfl | hx
      · exact le_trans hhead hy
      · exact ih _ x (List.mem_cons.mpr (Or.inr hx))

theorem foldl_add_eq_sum (l : List ℚ) (a : ℚ) : l.foldl (· + ·) a = a + l.sum := by
  induction l generalizing a with
  | nil => simp
  | cons x xs ih => simp [List.foldl_cons, ih, List.sum_cons]; ring

theorem collect_count_eq (v : String) (rows : List Bindings) :
    collectAggValues .count v rows = rows.map fun _ => (1 : ℚ) := by
  induction rows with
  | nil => rfl
  | cons r rs ih => simp [collectAggValues, List.filterMap_cons] at ih ⊢; exact ih

/-- Claim C5: under bindings `b`, once the aggregation body has resolved
to `rows`: `count` binds `|rows|` (so 0 for an empty collection), `sum`
binds the sum (0 when empty); `max`, `min` and `avg` over an empty
collected numeric set produce no candidate bindings, and over a
non-empty one bind the maximum / minimum / arithmetic mean of the
collected values into the `into` variable. -/
theorem C5_aggregation_semantics (e : Engine) (op : AggOp) (v into : String)
    (body : List Clause) (b : Bindings) (rows : List Bindings)
    (h : evaluateBody e body [b] = .ok rows) :
    (op = .count → evaluateAggregation e op v body into b =
      .ok [bSet b into (.float (rows.length : ℚ))]) ∧
    (op = .sum → evaluateAggregation e op v body into b =
      .ok [bSet b into (.float (collectAggValues .sum v rows).sum)]) ∧
    ((op = .max ∨ op = .min ∨ op = .avg) → collectAggValues op v rows = [] →
      evaluateAggregation e op v body into b = .ok []) ∧
    (op = .max → ∀ v0 vs, collectAggValues .max v rows = v0 :: vs →
      ∃ m, evaluateAggregation e op v body into b = .ok [bSet b into (.float m)] ∧
        m ∈ v0 :: vs ∧ ∀ x ∈ v0 :: vs, x ≤ m) ∧
    (op = .min → ∀ v0 vs, collectAggValues .min v rows = v0 :: vs →
      ∃ m, evaluateAggregation e op v body into b = .ok [bSet b into (.float m)] ∧
        m ∈ v0 :: vs ∧ ∀ x ∈ v0 :: vs, m ≤ x) ∧
    (op = .avg → ∀ v0 vs, collectAggValues .avg v rows = v0 :: vs →
      evaluateAggregation e op v body into b =
        .ok [bSet b into (.float ((v0 :: vs).sum / ((v0 :: vs).length : ℚ)))]) := by
  refine ⟨?_, ?_, ?_, ?_, ?_, ?_⟩
  · rintro rfl
    simp [evaluateAggregation, h, collect_count_eq]
  · rintro rfl
    simp [evaluateAggregation, h, foldl_add_eq_sum]
  · rintro (rfl | rfl | rfl) hempty <;> simp [evaluateAggregation, h, hempty]
  · rintro rfl v0 vs hvals
    refine ⟨(vs.foldl (fun r x => if r < x then x else r) v0), ?_, ?_, ?_⟩
    · simp [evaluateAggregation, h, hvals]
    · exact foldl_max_mem vs v0
    · exact foldl_max_le vs v0
  · rintro rfl v0 vs hvals
    refine ⟨(vs.foldl (fun r x => if x < r then x else r) v0), ?_, ?_, ?_⟩
    · simp [evaluateAggregation, h, hvals]
    · exact foldl_min_mem vs v0
    · exact foldl_min_ge vs v0
  · rintro rfl v0 vs hvals
    simp [evaluateAggregation, h, hvals, foldl_add_eq_sum]

/-- Witness for C5: `aggregate(max(?X), p(?X), ?M)` over facts `p(1)`,
`p(2)`. -/
theorem C5_witness :
    ∃ m, evaluateAggregation engC5 .max "?X" [.atomClause ⟨"p", [.var "?X"]⟩] "?M" [] =
        .ok [bSet [] "?M" (.float m)] ∧
      m ∈ [(1 : ℚ), 2] ∧ ∀ x ∈ [(1 : ℚ), 2], x ≤ m := by
  have hbody : evaluateBody engC5 [.atomClause ⟨"p", [.var "?X"]⟩] [[]] =
      .ok [[("?X", Value.float 1)], [("?X", Value.float 2)]] := by
    simp [evaluateBody, evalClauseAll, evaluateClause, evaluateAtom, engC5,
      getFacts, lookupAssoc, matchArgs, bLookup, bSet]
  exact (C5_aggregation_semantics engC5 .max "?X" "?M"
      [.atomClause ⟨"p", [.var "?X"]⟩] [] _ hbody).2.2.2.1 rfl 1 [2]
    (by simp [collectAggValues, resolveTerm, bLookup, toFloat64])

/-! ## C7: suggestion ordering -/

/-- Amended claim C7: any result admitted by the sort contract is a
permutation of the input ordered by impact with
high (0) < medium (1) < low (2) < any other impact (3).  (Stability is
not part of the contract: the source uses Go's `sort.Slice`, which is
not guaranteed to be stable — see the counterexample.) -/
theorem C7_sorted_by_impact (inp out : List Suggestion)
    (h : sortSliceResult suggestionLess inp out) :
    out.Perm inp ∧
    out.Pairwise (fun a b => impactOrder a.impact ≤ impactOrder b.impact) ∧
    impactOrder "high" = 0 ∧ impactOrder "medium" = 1 ∧ impactOrder "low" = 2 ∧
    (∀ s, s ≠ "high" → s ≠ "medium" → s ≠ "low" → impactOrder s = 3) := by
  refine ⟨h.1.symm, ?_, rfl, rfl, rfl, ?_⟩
  · refine h.2.imp fun hab => ?_
    simp only [suggestionLess, decide_eq_false_iff_not, not_lt] at hab
    exact hab
  · intro s h1 h2 h3
    simp [impactOrder, h1, h2, h3]

/-- Witness for C7 at a concrete sorted pair. -/
theorem C7_witness :
    ([c7A, c7B] : List Suggestion).Perm [c7A, c7B] ∧
    List.Pairwise (fun a b => impactOrder a.impact ≤ impactOrder b.impact)
      [c7A, c7B] ∧
    impactOrder "high" = 0 ∧ impactOrder "medium" = 1 ∧ impactOrder "low" = 2 ∧
    (∀ s, s ≠ "high" → s ≠ "medium" → s ≠ "low" → impactOrder s = 3) :=
  C7_sorted_by_impact [c7A, c7B] [c7A, c7B] ⟨List.Perm.refl _, by decide⟩

/-- Counterexample to C7 as stated: the sort contract admits an output
that reverses two equal-impact suggestions, so stability is not
guaranteed. -/
theorem C7_counterexample :
    sortSliceResult suggestionLess [c7A, c7B] [c7B, c7A] ∧
    c7A ≠ c7B ∧
    ¬ keepsEqualImpactOrder [c7A, c7B] [c7B, c7A] :=
  ⟨⟨List.Perm.swap c7B c7A [], by decide⟩, by decide, by decide⟩

/-! ## C8: suggestion deduplication -/

theorem dedupGo_acc_mem (l : List Suggestion) (seen : List String)
    (acc : List Suggestion) (s : Suggestion) (h : s ∈ acc) :
    s ∈ dedupGo seen acc l := by
  induction l generalizing seen acc with
  | nil => exact h
  | cons x rest ih =>
    unfold dedupGo
    split
    · exact ih _ _ h
    · exact ih _ _ (List.mem_append.mpr (Or.inl h))

theorem dedupGo_first_mem (pre : List Suggestion) (s : Suggestion)
    (post : List Suggestion) (seen : List String) (acc : List Suggestion)
    (hseen : dedupKey s ∉ seen) (hpre : ∀ t ∈ pre, dedupKey t ≠ dedupKey s) :
    s ∈ dedupGo seen acc (pre ++ s :: post) := by
  induction pre generalizing seen acc with
  | nil =>
    rw [List.nil_append]
    unfold dedupGo
    rw [if_neg hseen]
    exact dedupGo_acc_mem _ _ _ _ (List.mem_append.mpr (Or.inr (List.mem_singleton.mpr rfl)))
  | cons t pre' ih =>
    rw [List.cons_append]
    unfold dedupGo
    by_cases ht : dedupKey t ∈ seen
    · rw [if_pos ht]
      exact ih _ _ hseen fun u hu => hpre u (List.mem_cons.mpr (Or.inr hu))
    · rw [if_neg ht]
      refine ih _ _ ?_ fun u hu => hpre u (List.mem_cons.mpr (Or.inr hu))
      intro hmem
      rcases List.mem_cons.mp hmem with heq | hmem
      · exact hpre t (List.mem_cons_self _ _) heq.symm
      · exact hseen hmem

theorem dedupGo_keys_nodup (l : List Suggestion) (seen : List String)
    (acc : List Suggestion) (hacc : (acc.map dedupKey).Nodup)
    (hsub : ∀ a ∈ acc, dedupKey a ∈ seen) :
    ((dedupGo seen acc l).map dedupKey).Nodup := by
  induction l generalizing seen acc with
  | nil => exact hacc
  | cons x rest ih =>
    unfold dedupGo
    split
    · exact ih _ _ hacc hsub
    · rename_i hnot
      refine ih _ _ ?_ ?_
      · rw [List.map_append]
        simp only [List.map_cons, List.map_nil]
        rw [List.nodup_append]
        refine ⟨hacc, List.nodup_singleton _, ?_⟩
        intro k hk
        simp only [List.mem_singleton]
        intro hkx
        rcases List.mem_map.mp hk with ⟨a, ha, rfl⟩
        exact hnot (hkx ▸ hsub a ha)
      · intro a ha
        rcases List.mem_append.mp ha with ha | ha
        · exact List.mem_cons.mpr (Or.inr (hsub a ha))
        · rw [List.mem_singleton.mp ha]
          exact List.mem_cons_self _ _

/-- Amended claim C8: no two items of the deduplicated output share the
pair (ruleId, target) — indeed no two share the concatenated key
`ruleId ++ ":" ++ target` — and the first item carrying each *key* is
kept.  (At the *pair* level keep-first can fail: the raw concatenation
lets distinct pairs collide when a ruleId contains `':'` — see the
counterexample.) -/
theorem C8_dedup_pairs (l : List Suggestion) :
    (deduplicateSuggestions l).Pairwise
      (fun a b => ¬(a.ruleId = b.ruleId ∧ a.target = b.target)) ∧
    (∀ i : Fin l.length,
      (∀ j : Fin l.length, (j : ℕ) < i → dedupKey (l.get j) ≠ dedupKey (l.get i)) →
      l.get i ∈ deduplicateSuggestions l) := by
  constructor
  · have hnodup := dedupGo_keys_nodup l [] [] (by simp) (by simp)
    rw [List.Nodup, List.pairwise_map] at hnodup
    exact hnodup.imp fun hne ⟨h1, h2⟩ => hne (by simp [dedupKey, h1, h2])
  · intro i hfirst
    have hsplit : l = l.take i ++ l.get i :: l.drop (i + 1) := by
      conv_lhs => rw [← List.take_append_drop (i : ℕ) l]
      rw [List.drop_eq_getElem_cons i.isLt]
      rfl
    have hpre : ∀ t ∈ l.take (i : ℕ), dedupKey t ≠ dedupKey (l.get i) := by
      intro t ht
      rcases List.mem_iff_getElem.mp ht with ⟨j, hj, rfl⟩
      have hj' : j < (i : ℕ) := by
        have := hj
        rw [List.length_take] at this
        omega
      have hjl : j < l.length := lt_trans hj' i.isLt
      rw [List.getElem_take]
      exact hfirst ⟨j, hjl⟩ hj'
    have h1 : l.get i ∈ dedupGo [] [] (l.take i ++ l.get i :: l.drop (i + 1)) :=
      dedupGo_first_mem _ _ _ _ _ (by simp) hpre
    rw [← hsplit] at h1
    exact h1

/-- Witness for C8 (keep-first at the key level, concrete list). -/
theorem C8_witness :
    ([c8A, c8B] : List Suggestion).get ⟨0, by norm_num⟩ ∈
      deduplicateSuggestions [c8A, c8B] :=
  (C8_dedup_pairs [c8A, c8B]).2 ⟨0, by norm_num⟩ (by decide)

/-- Counterexample to C8 as stated: `c8B` and `c8C` share the pair
(ruleId, target) = ("a:b", "c") and `c8B` comes first among them, yet
the output keeps only `c8A` (whose distinct pair ("a", "b:c") collides
with them on the concatenated key "a:b:c"). -/
theorem C8_counterexample :
    deduplicateSuggestions [c8A, c8B, c8C] = [c8A] ∧
    pairOf c8A ≠ pairOf c8B ∧ pairOf c8B = pairOf c8C ∧ c8B ≠ c8C ∧
    ¬ keepsFirstOfEachPair [c8A, c8B, c8C] :=
  ⟨by decide, by decide, by decide, by decide, by decide⟩

/-! ## C3: target aggregates -/

theorem pred_of_mem_map {α : Type} (f : Fact) (name : String)
    (g : α → List Value) (l : List α)
    (h : f ∈ l.map fun x => Fact.mk name (g x)) : f.predicate = name := by
  rcases List.mem_map.mp h with ⟨x, _, rfl⟩
  rfl

theorem perEventFacts_pred_ne (i : ℕ) (e : TraceEvent) (f : Fact)
    (h : f ∈ perEventFacts i e) : f.predicate ≠ "target_count" := by
  unfold perEventFacts at h
  rcases hm : mnemonicStr e with _ | m <;> rw [hm] at h <;>
    rcases ht : targetStr e with _ | t <;> rw [ht] at h <;>
    by_cases ha : isActionableEvent e <;> by_cases hs : isSystemCategory e.cat <;>
    simp only [ha, hs, if_true, if_false, List.mem_append, List.mem_cons,
      List.not_mem_nil, List.mem_singleton, or_false, false_or] at h <;>
    casesm* _ ∨ _ <;> simp_all

theorem computeCriticalPath_pred_ne (events : List TraceEvent) (f : Fact)
    (h : f ∈ computeCriticalPath events) : f.predicate ≠ "target_count" := by
  unfold computeCriticalPath at h
  split at h
  · simp at h
  · rcases List.mem_append.mp h with h | h
    · split at h
      · simp at h
      · rcases List.mem_append.mp h with h | h
        · rw [List.mem_singleton.mp h]
          simp
        · split at h
          · rw [List.mem_singleton.mp h]
            simp
          · simp at h
    · rcases List.mem_map.mp h with ⟨a, _, rfl⟩
      simp

/-- No fact emitted by `GenerateFacts` is ever named `target_count`:
the Go emission loop only ranges over the `targetTime` map (the
`targetCount` map is computed and then dropped). -/
theorem generateFacts_no_target_count (events : List TraceEvent) :
    ∀ f ∈ GenerateFacts events, f.predicate ≠ "target_count" := by
  intro f h
  unfold GenerateFacts at h
  rcases List.mem_append.mp h with h | h; rotate_left
  · exact computeCriticalPath_pred_ne events f h
  rcases List.mem_append.mp h with h | h; rotate_left
  · rw [List.mem_singleton.mp h]; simp
  rcases List.mem_append.mp h with h | h; rotate_left
  · rw [pred_of_mem_map f _ _ _ h]; simp
  rcases List.mem_append.mp h with h | h; rotate_left
  · rw [pred_of_mem_map f _ _ _ h]; simp
  rcases List.mem_append.mp h with h | h; rotate_left
  · rw [pred_of_mem_map f _ _ _ h]; simp
  rcases List.mem_append.mp h with h | h; rotate_left
  · rw [pred_of_mem_map f _ _ _ h]; simp
  rcases List.mem_append.mp h with h | h; rotate_left
  · rw [pred_of_mem_map f _ _ _ h]; simp
  rcases List.mem_append.mp h with h | h
  · rcases List.mem_flatMap.mp h with ⟨ie, _, hf⟩
    exact perEventFacts_pred_ne ie.1 ie.2 f hf
  · simp only [List.mem_cons, List.not_mem_nil, or_false] at h
    rcases h with rfl | rfl | rfl | rfl | rfl <;> simp

/-- Claim C3 evaluated at the failing input: a single event with target
`//a:b` and duration 1000 produces the `target_time("//a:b", 1000)`
fact but no `target_count` fact at all. -/
theorem C3_target_time_without_target_count :
    (Fact.mk "target_time" [.str "//a:b", .float 1000] ∈ GenerateFacts evC3) ∧
    (GenerateFacts evC3).all (fun f => f.predicate != "target_count") = true := by
  constructor
  · have hlist : targetTimeFacts evC3 =
        [Fact.mk "target_time" [.str "//a:b", .float 1000]] := by
      simp only [targetTimeFacts, evC3, distinctKeys, targetStr, argLookup,
        lookupAssoc, sumDur, List.filterMap_cons, List.filter, List.foldl_cons,
        List.foldl_nil, List.map_cons, List.map_nil]
      simp
    have hmem : Fact.mk "target_time" [.str "//a:b", .float 1000] ∈ targetTimeFacts evC3 := by
      rw [hlist]
      exact List.mem_singleton.mpr rfl
    simp [GenerateFacts, List.mem_append, hmem]
  · simp only [List.all_eq_true, bne_iff_ne, ne_eq, decide_not]
    intro f hf
    simpa using generateFacts_no_target_count evC3 f hf

/-! ## C4: idempotence of `Evaluate` -/

theorem addDerived_count_ge (e : Engine) (fs : List Fact) (k : ℕ) :
    k ≤ (addDerived e fs k).2 := by
  induction fs generalizing e k with
  | nil => exact le_refl k
  | cons f rest ih =>
    unfold addDerived
    split
    · exact ih e k
    · exact le_trans (Nat.le_succ k) (ih _ _)

theorem addDerived_eq_of_count_eq (e : Engine) (fs : List Fact) (k : ℕ)
    (h : (addDerived e fs k).2 = k) : (addDerived e fs k).1 = e := by
  induction fs generalizing e k with
  | nil => rfl
  | cons f rest ih =>
    unfold addDerived at h ⊢
    by_cases hex : factExists e f
    · rw [if_pos (by exact_mod_cast hex)] at h ⊢
      exact ih e k h
    · rw [if_neg (by exact_mod_cast hex)] at h
      have := addDerived_count_ge (addFact e f) rest (k + 1)
      omega

theorem onePassGo_count_ge (rules : List Rule) (e : Engine) (k : ℕ)
    (e2 : Engine) (k2 : ℕ) (h : onePassGo e rules k = .ok (e2, k2)) : k ≤ k2 := by
  induction rules generalizing e k with
  | nil =>
    simp only [onePassGo, Except.ok.injEq, Prod.mk.injEq] at h
    omega
  | cons r rest ih =>
    rcases hrule : evaluateRule e r with msg | fs
    · simp only [onePassGo, hrule, except_error_bind] at h
      exact Except.noConfusion h
    · simp only [onePassGo, hrule, except_ok_bind] at h
      exact le_trans (addDerived_count_ge e fs k) (ih _ _ h)

theorem onePassGo_eq_of_count_eq (rules : List Rule) (e : Engine) (k : ℕ)
    (e2 : Engine) (h : onePassGo e rules k = .ok (e2, k)) : e2 = e := by
  induction rules generalizing e k with
  | nil =>
    simp only [onePassGo, Except.ok.injEq, Prod.mk.injEq] at h
    exact h.1.symm
  | cons r rest ih =>
    rcases hrule : evaluateRule e r with msg | fs
    · simp only [onePassGo, hrule, except_error_bind] at h
      exact Except.noConfusion h
    · simp only [onePassGo, hrule, except_ok_bind] at h
      have h1 := addDerived_count_ge e fs k
      have h2 := onePassGo_count_ge rest _ _ _ _ h
      have hcount : (addDerived e fs k).2 = k := by omega
      have heq := addDerived_eq_of_count_eq e fs k hcount
      rw [hcount] at h
      rw [ih _ _ h, heq]

/-- After a successful `Evaluate`, the resulting engine is a fixpoint:
one more pass derives nothing new and leaves the store unchanged. -/
theorem evaluate_fixpoint (n : ℕ) (e e' : Engine) (h : evaluate n e = .ok e') :
    onePass e' = .ok (e', 0) := by
  induction n generalizing e with
  | zero => simp [evaluate] at h
  | succ n ih =>
    rcases hop : onePass e with msg | p
    · simp only [evaluate, hop, except_error_bind] at h
      exact Except.noConfusion h
    · rcases p with ⟨e1, k⟩
      simp only [evaluate, hop, except_ok_bind] at h
      by_cases hk : k = 0
      · rw [if_pos hk] at h
        subst hk
        have hinj : e1 = e' := by simpa using h
        have he1 : e1 = e := onePassGo_eq_of_count_eq e.rules e 0 e1 hop
        rw [← hinj, he1]
        rw [he1] at hop
        exact hop
      · rw [if_neg hk] at h
        exact ih e1 h

/-- Claim C4: if `Evaluate` succeeded and no facts or rules were added
afterwards, a second `Evaluate` also succeeds and returns the very same
engine state (identical fact store, hence identical fact multisets and
total fact count). -/
theorem C4_evaluate_idempotent (n m : ℕ) (e e' : Engine)
    (h : evaluate n e = .ok e') (hm : 1 ≤ m) :
    evaluate m e' = .ok e' := by
  have hfix := evaluate_fixpoint n e e' h
  rcases m with _ | m
  · omega
  · simp [evaluate, hfix]

/-- Witness for C4 on a concrete engine. -/
theorem C4_witness : evaluate 1 engEmpty = .ok engEmpty :=
  C4_evaluate_idempotent 1 1 engEmpty engEmpty (by rfl) (by norm_num)

/-! ## C2: sweep correctness — order and sort lemmas -/

theorem ptLE_refl (p : Point) : ptLE p p := by
  unfold ptLE
  cases h : p.isStart
  · exact Or.inr ⟨rfl, Or.inr rfl⟩
  · exact Or.inr ⟨rfl, Or.inl rfl⟩

theorem ptLE_trans (a b c : Point) (h1 : ptLE a b) (h2 : ptLE b c) : ptLE a c := by
  unfold ptLE at *
  rcases h1 with h1 | ⟨h1, h1f⟩ <;> rcases h2 with h2 | ⟨h2, h2f⟩
  · exact Or.inl (lt_trans h1 h2)
  · exact Or.inl (h2 ▸ h1)
  · exact Or.inl (h1 ▸ h2)
  · refine Or.inr ⟨h1.trans h2, ?_⟩
    rcases h1f with ha | hb
    · exact Or.inl ha
    · rcases h2f with hb' | hc
      · rw [hb] at hb'
        exact absurd hb' (by simp)
      · exact Or.inr hc

theorem ptGt_false_iff (p q : Point) : ptGt p q = false ↔ ptLE p q := by
  unfold ptGt ptLE
  rcases lt_trichotomy p.time q.time with h | h | h
  · simp [h, asymm h, ne_of_lt h]
  · cases hps : p.isStart <;> cases hqs : q.isStart <;>
      simp [h, hps, hqs, lt_irrefl]
  · simp [h, asymm h, ne_of_gt h]

theorem ptGt_true_le (p q : Point) (hgt : ptGt p q = true) : ptLE q p := by
  rcases lt_trichotomy p.time q.time with h | h | h
  · exfalso
    unfold ptGt at hgt
    simp [asymm h, ne_of_lt h] at hgt
  · unfold ptGt at hgt
    simp [h, lt_irrefl] at hgt
    exact Or.inr ⟨h.symm, Or.inl hgt.2⟩
  · exact Or.inl h

theorem selPass_length {α : Type} (gt : α → α → Bool) (l : List α) (cur : α) :
    (selPass gt cur l).2.length = l.length := by
  induction l generalizing cur with
  | nil => rfl
  | cons y ys ih =>
    unfold selPass
    split
    · simp [ih y]
    · simp [ih cur]

theorem selPass_perm {α : Type} (gt : α → α → Bool) (l : List α) (cur : α) :
    ((selPass gt cur l).1 :: (selPass gt cur l).2).Perm (cur :: l) := by
  induction l generalizing cur with
  | nil => exact List.Perm.refl _
  | cons y ys ih =>
    unfold selPass
    split
    · exact (List.Perm.swap cur _ _).trans ((ih y).cons cur)
    · exact ((List.Perm.swap y _ _).trans ((ih cur).cons y)).trans
        (List.Perm.swap cur y ys)

theorem selPass_fst_le_cur (l : List Point) (cur : Point) :
    ptLE (selPass ptGt cur l).1 cur := by
  induction l generalizing cur with
  | nil => exact ptLE_refl cur
  | cons y ys ih =>
    unfold selPass
    split
    · rename_i hgt
      exact ptLE_trans _ _ _ (ih y) (ptGt_true_le _ _ hgt)
    · exact ih cur

theorem selPass_fst_le_rest (l : List Point) (cur : Point) :
    ∀ z ∈ (selPass ptGt cur l).2, ptLE (selPass ptGt cur l).1 z := by
  induction l generalizing cur with
  | nil => intro z hz; exact absurd hz (List.not_mem_nil z)
  | cons y ys ih =>
    unfold selPass
    split <;> rename_i hgt <;> intro z hz
    · rcases List.mem_cons.mp hz with rfl | hz
      · exact ptLE_trans _ _ _ (selPass_fst_le_cur ys y) (ptGt_true_le _ _ hgt)
      · exact ih y z hz
    · rcases List.mem_cons.mp hz with rfl | hz
      · exact ptLE_trans _ _ _ (selPass_fst_le_cur ys cur)
          ((ptGt_false_iff _ _).mp (by simpa using hgt))
      · exact ih cur z hz

theorem selSortGo_perm : ∀ (fuel : ℕ) (l : List Point), l.length ≤ fuel →
    (selSortGo ptGt fuel l).Perm l := by
  intro fuel
  induction fuel with
  | zero =>
    intro l hl
    rw [List.length_eq_zero.mp (Nat.le_zero.mp hl)]
    exact List.Perm.refl _
  | succ n ih =>
    intro l hl
    cases l with
    | nil => exact List.Perm.refl _
    | cons x xs =>
      show ((selPass ptGt x xs).1 :: selSortGo ptGt n (selPass ptGt x xs).2).Perm _
      have hlen : (selPass ptGt x xs).2.length ≤ n := by
        rw [selPass_length]
        simpa using hl
      exact ((ih _ hlen).cons _).trans (selPass_perm ptGt xs x)

theorem selSortGo_sorted : ∀ (fuel : ℕ) (l : List Point), l.length ≤ fuel →
    (selSortGo ptGt fuel l).Pairwise ptLE := by
  intro fuel
  induction fuel with
  | zero =>
    intro l hl
    rw [List.length_eq_zero.mp (Nat.le_zero.mp hl)]
    exact List.Pairwise.nil
  | succ n ih =>
    intro l hl
    cases l with
    | nil => exact List.Pairwise.nil
    | cons x xs =>
      show ((selPass ptGt x xs).1 :: selSortGo ptGt n (selPass ptGt x xs).2).Pairwise _
      have hlen : (selPass ptGt x xs).2.length ≤ n := by
        rw [selPass_length]
        simpa using hl
      refine List.Pairwise.cons ?_ (ih _ hlen)
      intro z hz
      exact selPass_fst_le_rest xs x z ((selSortGo_perm n _ hlen).mem_iff.mp hz)

theorem selSort_perm (l : List Point) : (selSort ptGt l).Perm l :=
  selSortGo_perm l.length l (le_refl _)

theorem selSort_sorted (l : List Point) : (selSort ptGt l).Pairwise ptLE :=
  selSortGo_sorted l.length l (le_refl _)

/-! ## C2: sweep correctness — running-sum lemmas -/

theorem psum_nil : psum [] = 0 := rfl

theorem psum_cons (p : Point) (l : List Point) :
    psum (p :: l) = (if p.isStart then (1 : ℤ) else -1) + psum l := by
  simp [psum]

theorem psum_append (a b : List Point) : psum (a ++ b) = psum a + psum b := by
  simp [psum]

theorem sweepGo_ge (l : List Point) : ∀ cur maxc : ℤ, maxc ≤ sweepGo l cur maxc := by
  induction l with
  | nil => intro cur maxc; exact le_refl _
  | cons p ps ih =>
    intro cur maxc
    unfold sweepGo
    split
    · refine le_trans ?_ (ih (cur + 1) _)
      split <;> omega
    · exact ih (cur - 1) maxc

theorem sweepGo_ge_start_prefix :
    ∀ (Q : List Point) (l : List Point) (cur maxc : ℤ) (s : Point) (R : List Point),
      Q ++ s :: R = l → s.isStart = true → cur + psum Q + 1 ≤ sweepGo l cur maxc := by
  intro Q
  induction Q with
  | nil =>
    intro l cur maxc s R heq hs
    subst heq
    rw [List.nil_append]
    unfold sweepGo
    rw [hs]
    simp only [if_true, psum_nil]
    have h1 := sweepGo_ge R (cur + 1) (if maxc < cur + 1 then cur + 1 else maxc)
    have h2 : cur + 1 ≤ (if maxc < cur + 1 then cur + 1 else maxc) ∨
        cur + 1 ≤ maxc := by split <;> omega
    rcases h2 with h2 | h2
    · omega
    · have := sweepGo_ge R (cur + 1) (if maxc < cur + 1 then cur + 1 else maxc)
      split at this <;> omega
  | cons p Q' ih =>
    intro l cur maxc s R heq hs
    subst heq
    rw [List.cons_append]
    unfold sweepGo
    cases hp : p.isStart
    · simp only [Bool.false_eq_true, if_false]
      have := ih (Q' ++ s :: R) (cur - 1) maxc s R rfl hs
      rw [psum_cons, hp]
      simp only [Bool.false_eq_true, if_false]
      omega
    · simp only [if_true]
      have := ih (Q' ++ s :: R) (cur + 1) (if maxc < cur + 1 then cur + 1 else maxc) s R rfl hs
      rw [psum_cons, hp]
      simp only [if_true]
      omega

theorem sweepGo_attained : ∀ (l : List Point) (cur maxc : ℤ),
    sweepGo l cur maxc = maxc ∨
    ∃ Q s R, Q ++ s :: R = l ∧ s.isStart = true ∧
      sweepGo l cur maxc = cur + psum Q + 1 := by
  intro l
  induction l with
  | nil => intro cur maxc; exact Or.inl rfl
  | cons p ps ih =>
    intro cur maxc
    cases hp : p.isStart
    · rcases ih (cur - 1) maxc with h | ⟨Q, s, R, heq, hs, hval⟩
      · left
        unfold sweepGo
        rw [hp]
        simpa using h
      · right
        refine ⟨p :: Q, s, R, by rw [List.cons_append, heq], hs, ?_⟩
        unfold sweepGo
        rw [hp]
        simp only [Bool.false_eq_true, if_false]
        rw [hval, psum_cons, hp]
        simp only [Bool.false_eq_true, if_false]
        omega
    · rcases ih (cur + 1) (if maxc < cur + 1 then cur + 1 else maxc) with h | ⟨Q, s, R, heq, hs, hval⟩
      · by_cases hmax : maxc < cur + 1
        · right
          refine ⟨[], p, ps, rfl, hp, ?_⟩
          unfold sweepGo
          rw [hp]
          simp only [if_true]
          rw [h, if_pos hmax, psum_nil]
          omega
        · left
          unfold sweepGo
          rw [hp]
          simp only [if_true]
          rw [h, if_neg hmax]
      · right
        refine ⟨p :: Q, s, R, by rw [List.cons_append, heq], hs, ?_⟩
        unfold sweepGo
        rw [hp]
        simp only [if_true]
        rw [hval, psum_cons, hp]
        simp only [if_true]
        omega

theorem psum_start_prefix : ∀ Q : List Point,
    psum Q ≤ 0 ∨
    ∃ Q' s R', Q = Q' ++ s :: R' ∧ s.isStart = true ∧
      (∀ z ∈ R', z.isStart = false) ∧ psum Q ≤ psum Q' + 1 := by
  intro Q
  induction Q using List.reverseRecOn with
  | nil => left; rfl
  | append_singleton Q0 p ih =>
    cases hp : p.isStart
    · rcases ih with h | ⟨Q', s, R', heq, hs, hR, hle⟩
      · left
        rw [psum_append, psum_cons, psum_nil, hp]
        simp only [Bool.false_eq_true, if_false]
        omega
      · right
        refine ⟨Q', s, R' ++ [p], by rw [heq, List.append_assoc]; rfl, hs, ?_, ?_⟩
        · intro z hz
          rcases List.mem_append.mp hz with hz | hz
          · exact hR z hz
          · rw [List.mem_singleton.mp hz]
            exact hp
        · rw [psum_append, psum_cons, psum_nil, hp]
          simp only [Bool.false_eq_true, if_false]
          omega
    · right
      refine ⟨Q0, p, [], rfl, hp, by simp, ?_⟩
      rw [psum_append, psum_cons, psum_nil, hp]
      simp only [if_true]
      omega

theorem psum_prefix_le_sweep (l Q R : List Point) (heq : Q ++ R = l) :
    psum Q ≤ sweepGo l 0 0 := by
  rcases psum_start_prefix Q with h | ⟨Q', s, R', hQ, hs, _, hle⟩
  · exact le_trans h (sweepGo_ge l 0 0)
  · have hdecomp : Q' ++ s :: (R' ++ R) = l := by
      rw [← heq, hQ, List.append_assoc]
      rfl
    have := sweepGo_ge_start_prefix Q' l 0 0 s (R' ++ R) hdecomp hs
    omega

/-! ## C2: sweep correctness — counting lemmas -/

theorem pPt_closed (t : ℝ) (a b : Point) (hle : ptLE a b) (hb : pPt t b) :
    pPt t a := by
  unfold ptLE at hle
  unfold pPt at *
  rcases hle with h | ⟨heq, hflag⟩
  · rcases hb with hb | ⟨hb, _⟩
    · exact Or.inl (lt_trans (by exact_mod_cast h) hb)
    · exact Or.inl (lt_of_lt_of_le (by exact_mod_cast h) (le_of_eq hb))
  · rcases hb with hb | ⟨hb, hbs⟩
    · exact Or.inl (by rw [heq] at *; exact_mod_cast hb)
    · rcases hflag with ha | hb'
      · exact Or.inr ⟨by rw [heq]; exact hb, ha⟩
      · rw [hbs] at hb'
        exact absurd hb' (by simp)

theorem sorted_pPt_split (t : ℝ) : ∀ l : List Point, l.Pairwise ptLE →
    ∃ Q R, Q ++ R = l ∧ (∀ p ∈ Q, pPt t p) ∧ (∀ p ∈ R, ¬ pPt t p) := by
  intro l hl
  induction l with
  | nil => exact ⟨[], [], rfl, by simp, by simp⟩
  | cons x xs ih =>
    have hx := (List.pairwise_cons.mp hl).1
    have hxs := (List.pairwise_cons.mp hl).2
    by_cases hpx : pPt t x
    · rcases ih hxs with ⟨Q, R, heq, hQ, hR⟩
      refine ⟨x :: Q, R, by rw [List.cons_append, heq], ?_, hR⟩
      intro p hp
      rcases List.mem_cons.mp hp with rfl | hp
      · exact hpx
      · exact hQ p hp
    · refine ⟨[], x :: xs, rfl, by simp, ?_⟩
      intro p hp hcontra
      rcases List.mem_cons.mp hp with rfl | hp
      · exact hpx hcontra
      · exact hpx (pPt_closed t x p (hx p hp) hcontra)

theorem pointCnt_cons_pos (P : Point → Prop) (p : Point) (l : List Point)
    (h : P p) : pointCnt P (p :: l) = pointCnt P l + 1 := by
  classical
  unfold pointCnt
  rw [List.countP_cons]
  simp [h]

theorem pointCnt_cons_neg (P : Point → Prop) (p : Point) (l : List Point)
    (h : ¬ P p) : pointCnt P (p :: l) = pointCnt P l := by
  classical
  unfold pointCnt
  rw [List.countP_cons]
  simp [h]

theorem eventCnt_cons_pos (P : TraceEvent → Prop) (e : TraceEvent)
    (l : List TraceEvent) (h : P e) : eventCnt P (e :: l) = eventCnt P l + 1 := by
  classical
  unfold eventCnt
  rw [List.countP_cons]
  simp [h]

theorem eventCnt_cons_neg (P : TraceEvent → Prop) (e : TraceEvent)
    (l : List TraceEvent) (h : ¬ P e) : eventCnt P (e :: l) = eventCnt P l := by
  classical
  unfold eventCnt
  rw [List.countP_cons]
  simp [h]

theorem countClosedAt_cons_pos (e : TraceEvent) (l : List TraceEvent) (t : ℝ)
    (h : (e.ts : ℝ) ≤ t ∧ t ≤ (e.ts : ℝ) + (e.dur : ℝ)) :
    countClosedAt (e :: l) t = countClosedAt l t + 1 := by
  classical
  unfold countClosedAt
  rw [List.countP_cons]
  simp [h]

theorem countClosedAt_cons_neg (e : TraceEvent) (l : List TraceEvent) (t : ℝ)
    (h : ¬ ((e.ts : ℝ) ≤ t ∧ t ≤ (e.ts : ℝ) + (e.dur : ℝ))) :
    countClosedAt (e :: l) t = countClosedAt l t := by
  classical
  unfold countClosedAt
  rw [List.countP_cons]
  simp [h]

theorem pointCnt_congr (P P' : Point → Prop) (l : List Point)
    (h : ∀ p ∈ l, P p ↔ P' p) : pointCnt P l = pointCnt P' l := by
  classical
  induction l with
  | nil => rfl
  | cons x xs ih =>
    have ih' := ih fun p hp => h p (List.mem_cons.mpr (Or.inr hp))
    have hx' := h x (List.mem_cons_self _ _)
    by_cases hx : P x
    · rw [pointCnt_cons_pos P x xs hx, pointCnt_cons_pos P' x xs (hx'.mp hx), ih']
    · rw [pointCnt_cons_neg P x xs hx,
        pointCnt_cons_neg P' x xs fun h' => hx (hx'.mpr h'), ih']

theorem pointCnt_append (P : Point → Prop) (a b : List Point) :
    pointCnt P (a ++ b) = pointCnt P a + pointCnt P b := by
  unfold pointCnt
  exact List.countP_append _ _ _

theorem pointCnt_eq_zero (P : Point → Prop) (l : List Point)
    (h : ∀ p ∈ l, ¬ P p) : pointCnt P l = 0 := by
  unfold pointCnt
  rw [List.countP_eq_zero]
  intro p hp
  simpa using h p hp

theorem pointCnt_perm (P : Point → Prop) (a b : List Point) (h : a.Perm b) :
    pointCnt P a = pointCnt P b :=
  h.countP_eq _

theorem psum_eq_counts (l : List Point) :
    psum l = (pointCnt (fun p => p.isStart = true) l : ℤ) -
      (pointCnt (fun p => p.isStart = false) l : ℤ) := by
  induction l with
  | nil => rfl
  | cons p ps ih =>
    rw [psum_cons, ih]
    cases hp : p.isStart
    · rw [pointCnt_cons_neg (fun p => p.isStart = true) p ps (by simp [hp]),
        pointCnt_cons_pos (fun p => p.isStart = false) p ps hp]
      norm_num
      ring
    · rw [pointCnt_cons_pos (fun p => p.isStart = true) p ps hp,
        pointCnt_cons_neg (fun p => p.isStart = false) p ps (by simp [hp])]
      norm_num
      ring

theorem psum_all_starts (l : List Point) (h : ∀ z ∈ l, z.isStart = true) :
    psum l = l.length := by
  induction l with
  | nil => rfl
  | cons p ps ih =>
    rw [psum_cons, h p (List.mem_cons_self _ _),
      ih fun z hz => h z (List.mem_cons.mpr (Or.inr hz))]
    simp
    omega

theorem cnt_points_start (t : ℝ) (events : List TraceEvent) :
    pointCnt (fun p => pPt t p ∧ p.isStart = true) (eventPoints events) =
      eventCnt (fun e => (e.ts : ℝ) ≤ t) events := by
  induction events with
  | nil => rfl
  | cons e es ih =>
    show pointCnt _ (⟨e.ts, true⟩ :: ⟨e.ts + e.dur, false⟩ :: eventPoints es) = _
    have hiff : (pPt t ⟨e.ts, true⟩ ∧ (true : Bool) = true) ↔ (e.ts : ℝ) ≤ t := by
      unfold pPt
      constructor
      · rintro ⟨h | ⟨h, _⟩, _⟩
        · exact le_of_lt h
        · exact le_of_eq h
      · intro h
        rcases lt_or_eq_of_le h with h | h
        · exact ⟨Or.inl h, rfl⟩
        · exact ⟨Or.inr ⟨h, rfl⟩, rfl⟩
    have hfalse : ¬ (pPt t ⟨e.ts + e.dur, false⟩ ∧ (false : Bool) = true) := by
      rintro ⟨_, h⟩
      exact absurd h (by simp)
    by_cases h : (e.ts : ℝ) ≤ t
    · rw [pointCnt_cons_pos _ _ _ (hiff.mpr h), pointCnt_cons_neg _ _ _ hfalse,
        ih, eventCnt_cons_pos _ _ _ h]
    · rw [pointCnt_cons_neg _ _ _ (fun hc => h (hiff.mp hc)),
        pointCnt_cons_neg _ _ _ hfalse, ih, eventCnt_cons_neg _ _ _ h]

theorem cnt_points_end (t : ℝ) (events : List TraceEvent) :
    pointCnt (fun p => pPt t p ∧ p.isStart = false) (eventPoints events) =
      eventCnt (fun e => (e.ts : ℝ) + (e.dur : ℝ) < t) events := by
  induction events with
  | nil => rfl
  | cons e es ih =>
    show pointCnt _ (⟨e.ts, true⟩ :: ⟨e.ts + e.dur, false⟩ :: eventPoints es) = _
    have hstart : ¬ (pPt t ⟨e.ts, true⟩ ∧ (true : Bool) = false) := by
      rintro ⟨_, h⟩
      exact absurd h (by simp)
    have hiff : (pPt t ⟨e.ts + e.dur, false⟩ ∧ (false : Bool) = false) ↔
        (e.ts : ℝ) + (e.dur : ℝ) < t := by
      unfold pPt
      constructor
      · rintro ⟨h | ⟨_, hb⟩, _⟩
        · push_cast at h
          exact h
        · exact absurd hb (by simp)
      · intro h
        refine ⟨Or.inl ?_, rfl⟩
        push_cast
        exact h
    by_cases h : (e.ts : ℝ) + (e.dur : ℝ) < t
    · rw [pointCnt_cons_neg _ _ _ hstart, pointCnt_cons_pos _ _ _ (hiff.mpr h),
        ih, eventCnt_cons_pos _ _ _ h]
    · rw [pointCnt_cons_neg _ _ _ hstart,
        pointCnt_cons_neg _ _ _ (fun hc => h (hiff.mp hc)), ih,
        eventCnt_cons_neg _ _ _ h]

theorem countClosed_eq_cnt_diff (events : List TraceEvent) (t : ℝ)
    (hd : ∀ e ∈ events, 0 ≤ e.dur) :
    (countClosedAt events t : ℤ) =
      (eventCnt (fun e => (e.ts : ℝ) ≤ t) events : ℤ) -
      (eventCnt (fun e => (e.ts : ℝ) + (e.dur : ℝ) < t) events : ℤ) := by
  induction events with
  | nil => rfl
  | cons e es ih =>
    have hdur : (0 : ℝ) ≤ (e.dur : ℝ) := by
      exact_mod_cast hd e (List.mem_cons_self _ _)
    have ihes := ih fun x hx => hd x (List.mem_cons.mpr (Or.inr hx))
    by_cases h1 : (e.ts : ℝ) ≤ t <;> by_cases h2 : (e.ts : ℝ) + (e.dur : ℝ) < t
    · have hc : ¬ ((e.ts : ℝ) ≤ t ∧ t ≤ (e.ts : ℝ) + (e.dur : ℝ)) := by
        rintro ⟨_, hc⟩
        linarith
      rw [countClosedAt_cons_neg _ _ _ hc, eventCnt_cons_pos _ _ _ h1,
        eventCnt_cons_pos _ _ _ h2]
      push_cast [ihes]
      ring
    · have hc : (e.ts : ℝ) ≤ t ∧ t ≤ (e.ts : ℝ) + (e.dur : ℝ) := ⟨h1, by linarith⟩
      rw [countClosedAt_cons_pos _ _ _ hc, eventCnt_cons_pos _ _ _ h1,
        eventCnt_cons_neg _ _ _ h2]
      push_cast [ihes]
      ring
    · exact absurd (by linarith : (e.ts : ℝ) ≤ t) h1
    · have hc : ¬ ((e.ts : ℝ) ≤ t ∧ t ≤ (e.ts : ℝ) + (e.dur : ℝ)) := by
        rintro ⟨hc, _⟩
        exact h1 hc
      rw [countClosedAt_cons_neg _ _ _ hc, eventCnt_cons_neg _ _ _ h1,
        eventCnt_cons_neg _ _ _ h2, ihes]

/-! ## C2: sweep correctness — assembly -/

theorem listSplitCommon {α : Type} (A R1 B R2 : List α) (h : A ++ R1 = B ++ R2)
    (hl : A.length ≤ B.length) : ∃ E, B = A ++ E ∧ R1 = E ++ R2 := by
  induction A generalizing B with
  | nil => exact ⟨B, rfl, by simpa using h⟩
  | cons a A' ih =>
    cases B with
    | nil => simp at hl
    | cons b B' =>
      simp only [List.cons_append, List.cons.injEq] at h
      rcases h with ⟨rfl, h2⟩
      rcases ih B' h2 (by simpa using hl) with ⟨E, rfl, hE⟩
      exact ⟨E, rfl, hE⟩

theorem countClosed_eq_psum (events : List TraceEvent) (t : ℝ)
    (hd : ∀ e ∈ events, 0 ≤ e.dur) (Q R : List Point)
    (heq : Q ++ R = selSort ptGt (eventPoints events))
    (hQ : ∀ p ∈ Q, pPt t p) (hR : ∀ p ∈ R, ¬ pPt t p) :
    (countClosedAt events t : ℤ) = psum Q := by
  have hQstart : pointCnt (fun p => pPt t p ∧ p.isStart = true) (Q ++ R) =
      pointCnt (fun p => p.isStart = true) Q := by
    rw [pointCnt_append,
      pointCnt_eq_zero _ R (fun p hp hc => hR p hp hc.1),
      pointCnt_congr (fun p => pPt t p ∧ p.isStart = true)
        (fun p => p.isStart = true) Q
        (fun p hp => ⟨fun hc => hc.2, fun hs => ⟨hQ p hp, hs⟩⟩)]
    omega
  have hQend : pointCnt (fun p => pPt t p ∧ p.isStart = false) (Q ++ R) =
      pointCnt (fun p => p.isStart = false) Q := by
    rw [pointCnt_append,
      pointCnt_eq_zero _ R (fun p hp hc => hR p hp hc.1),
      pointCnt_congr (fun p => pPt t p ∧ p.isStart = false)
        (fun p => p.isStart = false) Q
        (fun p hp => ⟨fun hc => hc.2, fun hs => ⟨hQ p hp, hs⟩⟩)]
    omega
  have hLperm : (Q ++ R).Perm (eventPoints events) := by
    rw [heq]
    exact selSort_perm (eventPoints events)
  have hstart : pointCnt (fun p => pPt t p ∧ p.isStart = true) (Q ++ R) =
      eventCnt (fun e => (e.ts : ℝ) ≤ t) events := by
    rw [pointCnt_perm _ _ _ hLperm, cnt_points_start]
  have hend : pointCnt (fun p => pPt t p ∧ p.isStart = false) (Q ++ R) =
      eventCnt (fun e => (e.ts : ℝ) + (e.dur : ℝ) < t) events := by
    rw [pointCnt_perm _ _ _ hLperm, cnt_points_end]
  rw [countClosed_eq_cnt_diff events t hd, psum_eq_counts,
    ← hQstart, ← hQend, hstart, hend]

theorem cmc_eq_sweep (events : List TraceEvent) (hne : events ≠ []) :
    computeMaxConcurrency events =
      sweepGo (selSort ptGt (eventPoints events)) 0 0 := by
  unfold computeMaxConcurrency
  rw [if_neg (by simpa using hne)]

/-- Upper bound: the closed-interval concurrency at any real time never
exceeds the sweep's answer. -/
theorem countClosed_le_cmc (events : List TraceEvent)
    (hd : ∀ e ∈ events, 0 ≤ e.dur) (t : ℝ) :
    (countClosedAt events t : ℤ) ≤ computeMaxConcurrency events := by
  by_cases hemp : events = []
  · subst hemp
    show ((0 : ℕ) : ℤ) ≤ 0
    norm_num
  · obtain ⟨Q, R, heq, hQ, hR⟩ :=
      sorted_pPt_split t _ (selSort_sorted (eventPoints events))
    rw [countClosed_eq_psum events t hd Q R heq hQ hR, cmc_eq_sweep events hemp]
    exact psum_prefix_le_sweep _ Q R heq

/-- Attainment: some real time realises the sweep's answer (for
nonnegative durations). -/
theorem exists_countClosed_eq_cmc (events : List TraceEvent)
    (hd : ∀ e ∈ events, 0 ≤ e.dur) :
    ∃ t : ℝ, (countClosedAt events t : ℤ) = computeMaxConcurrency events := by
  classical
  by_cases hemp : events = []
  · exact ⟨0, by subst hemp; rfl⟩
  · have hsorted := selSort_sorted (eventPoints events)
    rcases sweepGo_attained (selSort ptGt (eventPoints events)) 0 0 with
      hzero | ⟨Q, s, R, heq, hs, hval⟩
    · exfalso
      obtain ⟨e0, he0⟩ := List.exists_mem_of_ne_nil events hemp
      have hd0 : (0 : ℝ) ≤ (e0.dur : ℝ) := by exact_mod_cast hd e0 he0
      have hcount : 0 < countClosedAt events (e0.ts : ℝ) := by
        unfold countClosedAt
        refine List.countP_pos_iff.mpr ⟨e0, he0, ?_⟩
        simp only [decide_eq_true_eq]
        exact ⟨le_refl _, by linarith⟩
      have hub := countClosed_le_cmc events hd (e0.ts : ℝ)
      rw [cmc_eq_sweep events hemp, hzero] at hub
      omega
    · refine ⟨(s.time : ℝ), ?_⟩
      have hcmc : computeMaxConcurrency events = psum Q + 1 := by
        rw [cmc_eq_sweep events hemp, hval]
        ring
      have hub := countClosed_le_cmc events hd (s.time : ℝ)
      obtain ⟨Qt, Rt, heq2, hQt, hRt⟩ := sorted_pPt_split (s.time : ℝ) _ hsorted
      have hcount_eq : (countClosedAt events (s.time : ℝ) : ℤ) = psum Qt :=
        countClosed_eq_psum events _ hd Qt Rt heq2 hQt hRt
      have hpPts : pPt (s.time : ℝ) s := Or.inr ⟨rfl, hs⟩
      have hpairQ := (List.pairwise_append.mp (heq ▸ hsorted))
      have hlen : Q.length + 1 ≤ Qt.length := by
        by_contra hlt
        push_neg at hlt
        obtain ⟨E, hQE, hRtE⟩ := listSplitCommon Qt Rt Q (s :: R)
          (heq2.trans heq.symm) (by omega)
        have hsRt : s ∈ Rt := by
          rw [hRtE]
          exact List.mem_append.mpr (Or.inr (List.mem_cons_self _ _))
        exact hRt s hsRt hpPts
      have hshape : (Q ++ [s]) ++ R = Qt ++ Rt := by
        rw [List.append_assoc]
        simpa using heq.trans heq2.symm
      obtain ⟨E, hQtE, hRE⟩ := listSplitCommon (Q ++ [s]) R Qt Rt hshape
        (by simpa using hlen)
      have hsR : (s :: R).Pairwise ptLE := (heq ▸ hsorted :
        (Q ++ s :: R).Pairwise ptLE) |> List.pairwise_append.mp |>.2.1
      have hEstart : ∀ z ∈ E, z.isStart = true := by
        intro z hz
        have hzQt : z ∈ Qt := by
          rw [hQtE]
          exact List.mem_append.mpr (Or.inr hz)
        have hzpPt := hQt z hzQt
        have hzR : z ∈ R := by
          rw [hRE]
          exact List.mem_append.mpr (Or.inl hz)
        have hle : ptLE s z := (List.pairwise_cons.mp hsR).1 z hzR
        rcases hzpPt with hlt' | ⟨_, hstart⟩
        · exfalso
          rcases hle with hle | ⟨hle, _⟩
          · have : (s.time : ℝ) < (z.time : ℝ) := by exact_mod_cast hle
            linarith
          · rw [hle] at hlt'
            linarith
        · exact hstart
      have hpsumQt : psum Qt = psum Q + 1 + psum E := by
        rw [hQtE, psum_append, psum_append, psum_cons, psum_nil, hs]
        simp
        try ring
      have hElen := psum_all_starts E hEstart
      rw [hcount_eq, hcmc]
      rw [hcount_eq, hcmc, hpsumQt] at hub
      omega

/-- Membership of the `max_concurrency` fact in `GenerateFacts`. -/
theorem maxconc_fact_mem (events : List TraceEvent) :
    Fact.mk "max_concurrency" [.int (computeMaxConcurrency events)] ∈
      GenerateFacts events := by
  unfold GenerateFacts
  exact List.mem_append.mpr (Or.inl (List.mem_append.mpr
    (Or.inr (List.mem_singleton.mpr rfl))))

/-- Amended claim C2: for events with nonnegative durations, the value
emitted in the `max_concurrency` fact equals the maximum over all real
times `t` of the number of events whose **closed** interval
`[start, start + dur]` contains `t` — an event ending exactly when
another starts is counted as overlapping it (the sweep sorts
start-points before end-points at equal times). -/
theorem C2_max_concurrency_closed_intervals (events : List TraceEvent)
    (hd : ∀ e ∈ events, 0 ≤ e.dur) :
    (Fact.mk "max_concurrency" [.int (computeMaxConcurrency events)] ∈
      GenerateFacts events) ∧
    (∀ t : ℝ, (countClosedAt events t : ℤ) ≤ computeMaxConcurrency events) ∧
    (∃ t : ℝ, (countClosedAt events t : ℤ) = computeMaxConcurrency events) :=
  ⟨maxconc_fact_mem events, countClosed_le_cmc events hd,
    exists_countClosed_eq_cmc events hd⟩

/-- Witness for C2's amended claim at the two touching events. -/
theorem C2_witness :
    (Fact.mk "max_concurrency" [.int (computeMaxConcurrency evC2)] ∈
      GenerateFacts evC2) ∧
    (∀ t : ℝ, (countClosedAt evC2 t : ℤ) ≤ computeMaxConcurrency evC2) ∧
    (∃ t : ℝ, (countClosedAt evC2 t : ℤ) = computeMaxConcurrency evC2) :=
  C2_max_concurrency_closed_intervals evC2
    (by intro e he; simp [evC2] at he; rcases he with rfl | rfl <;> norm_num)

/-- Counterexample to C2 as stated: for the touching events `[0,100)`
and `[100,150)` the emitted value is 2, yet no real time is contained
in both half-open intervals — the half-open concurrency never
exceeds 1. -/
theorem C2_counterexample :
    computeMaxConcurrency evC2 = 2 ∧
    (Fact.mk "max_concurrency" [.int 2] ∈ GenerateFacts evC2) ∧
    ∀ t : ℝ, countHalfOpenAt evC2 t ≤ 1 := by
  have h2 : computeMaxConcurrency evC2 = 2 := by
    norm_num [computeMaxConcurrency, evC2, eventPoints, selSort, selSortGo,
      selPass, ptGt, sweepGo]
  refine ⟨h2, ?_, ?_⟩
  · have hmem := maxconc_fact_mem evC2
    rw [h2] at hmem
    exact hmem
  · intro t
    classical
    unfold countHalfOpenAt evC2
    rw [List.countP_cons, List.countP_cons, List.countP_nil]
    simp only [decide_eq_true_eq]
    split_ifs with hA hB hB <;> try norm_num
    exfalso
    push_cast at hA hB
    simp at hA hB
    linarith [hA.1, hA.2, hB.1, hB.2]

end Gangaji
